import Mathlib

/-!
Verification of the recipe-management backend (`src/app/recipe/views.py`,
`src/app/recipe/serializers.py`) against its specification.

The embedding models the relational state (users are plain `Nat`
identifiers; rows of the `Recipe`, `Tag` and `Ingredient` tables are
records; the two many-to-many link tables are lists of id pairs) and
translates each view / serializer operation from the Python source.
Django/DRF primitives that the source calls (`QuerySet.filter`,
`order_by`, `distinct`, `get_or_create`, many-to-many `add` / `clear`,
`Model.save`, `get_object`) are given their documented semantics.
-/

namespace RecipeApp

/-- A row of the `Tag` table (`core.models.Tag`): `name` plus owning `user`. -/
structure Tag where
  id : Nat
  user : Nat
  name : String
deriving DecidableEq, Repr

/-- A row of the `Ingredient` table (`core.models.Ingredient`). -/
structure Ingredient where
  id : Nat
  user : Nat
  name : String
deriving DecidableEq, Repr

/-- A row of the `Recipe` table (scalar columns only; the two
many-to-many relations live in the link tables of `DB`). -/
structure Recipe where
  id : Nat
  user : Nat
  title : String
  time_minutes : Nat
  price : Int
  link : String
  description : String
deriving DecidableEq, Repr

/-- The relational state: the three entity tables, the two
many-to-many link tables (`recipeTags` holds `(recipe id, tag id)`
pairs, `recipeIngredients` holds `(recipe id, ingredient id)` pairs),
and the auto-increment counters for primary keys. -/
structure DB where
  recipes : List Recipe
  tags : List Tag
  ingredients : List Ingredient
  recipeTags : List (Nat × Nat)
  recipeIngredients : List (Nat × Nat)
  nextRecipeId : Nat
  nextTagId : Nat
  nextIngredientId : Nat
deriving DecidableEq, Repr

/-- Outcome of a request: `crash` models an uncaught Python exception
(e.g. `ValueError` from `int(...)`, which no code in `views.py`
catches), `notFound` a 404 response, `forbidden` a 403 response,
`badRequest` a 400 response. -/
inductive ApiError where
  | crash
  | notFound
  | forbidden
  | badRequest
deriving DecidableEq, Repr

instance {ε α : Type} [DecidableEq ε] [DecidableEq α] : DecidableEq (Except ε α) :=
  fun a b =>
    match a, b with
    | .error e1, .error e2 =>
      if h : e1 = e2 then isTrue (by rw [h])
      else isFalse (fun hc => h (Except.error.inj hc))
    | .error _, .ok _ => isFalse (fun hc => Except.noConfusion hc)
    | .ok _, .error _ => isFalse (fun hc => Except.noConfusion hc)
    | .ok v1, .ok v2 =>
      if h : v1 = v2 then isTrue (by rw [h])
      else isFalse (fun hc => h (Except.ok.inj hc))

/-- Unicode whitespace as recognised by Python's `str.isspace()` —
the characters `int(str)` strips from both ends before parsing:
ASCII 0x09–0x0D and space, the C1 separators 0x1C–0x1F, NEL 0x85,
NBSP 0xA0, Ogham space 0x1680, the general punctuation spaces
0x2000–0x200A, line/paragraph separators 0x2028/0x2029, narrow
no-break space 0x202F, medium mathematical space 0x205F, and
ideographic space 0x3000. -/
def pyIsSpace (c : Char) : Bool :=
  let n := c.toNat
  (0x9 ≤ n && n ≤ 0xD) || (0x1C ≤ n && n ≤ 0x1F) || n == 0x20 ||
  n == 0x85 || n == 0xA0 || n == 0x1680 ||
  (0x2000 ≤ n && n ≤ 0x200A) || n == 0x2028 || n == 0x2029 ||
  n == 0x202F || n == 0x205F || n == 0x3000

/-- Strip leading and trailing whitespace, as Python's `int(str)` does
before parsing. -/
def pyStrip (l : List Char) : List Char :=
  (((l.dropWhile pyIsSpace).reverse).dropWhile pyIsSpace).reverse

/-- First code points of the Unicode `Nd` (decimal-digit) blocks of
Unicode 15.0, the character database shipped with current CPython;
each block is the ten consecutive code points start..start+9 standing
for the digits 0–9.  Python's `int()` accepts exactly the `Nd`
characters as digits (e.g. Arabic-Indic or fullwidth digits), not
merely ASCII `0`–`9`. -/
def pyDigitBlockStarts : List Nat :=
  [0x0030, 0x0660, 0x06F0, 0x07C0, 0x0966, 0x09E6, 0x0A66, 0x0AE6,
   0x0B66, 0x0BE6, 0x0C66, 0x0CE6, 0x0D66, 0x0DE6, 0x0E50, 0x0ED0,
   0x0F20, 0x1040, 0x1090, 0x17E0, 0x1810, 0x1946, 0x19D0, 0x1A80,
   0x1A90, 0x1B50, 0x1BB0, 0x1C40, 0x1C50, 0xA620, 0xA8D0, 0xA900,
   0xA9D0, 0xA9F0, 0xAA50, 0xABF0, 0xFF10, 0x104A0, 0x10D30, 0x11066,
   0x110F0, 0x11136, 0x111D0, 0x112F0, 0x11450, 0x114D0, 0x11650,
   0x116C0, 0x11730, 0x118E0, 0x11950, 0x11C50, 0x11D50, 0x11DA0,
   0x11F50, 0x16A60, 0x16AC0, 0x16B50, 0x1D7CE, 0x1D7D8, 0x1D7E2,
   0x1D7EC, 0x1D7F6, 0x1E140, 0x1E2F0, 0x1E4F0, 0x1E950, 0x1FBF0]

/-- The decimal value of a character when it is a Unicode decimal
digit (general category `Nd`), else `none`.  These are exactly the
digit characters Python's `int()` accepts. -/
def pyDigitVal (c : Char) : Option Nat :=
  let n := c.toNat
  match pyDigitBlockStarts.find? (fun s => s ≤ n && n ≤ s + 9) with
  | some s => some (n - s)
  | none => none

/-- The tail of Python's `digitpart` grammar (PEP 515):
`(["_"] digit)*` — an underscore is allowed only between two digits,
so it must be followed directly by a digit, and a trailing underscore
fails. `acc` is the value of the digits already consumed. -/
def pyDigitsRest (acc : Nat) : List Char → Option Nat
  | [] => some acc
  | '_' :: rest =>
    match rest with
    | [] => none
    | c :: rest1 =>
      match pyDigitVal c with
      | some d => pyDigitsRest (acc * 10 + d) rest1
      | none => none
  | c :: rest =>
    match pyDigitVal c with
    | some d => pyDigitsRest (acc * 10 + d) rest
    | none => none

/-- Python's `digitpart` grammar (PEP 515): `digit (["_"] digit)*` —
at least one digit, with single underscores allowed only between
digits (so `1_0` parses to `10` but `_1`, `1_` and `1__0` fail). -/
def pyDigitPart : List Char → Option Nat
  | [] => none
  | c :: rest =>
    match pyDigitVal c with
    | some d => pyDigitsRest d rest
    | none => none

/-- Python's `int(s)` on the characters of a string: optional
surrounding Unicode whitespace, an optional sign, then a PEP 515
`digitpart` of Unicode decimal digits; anything else raises
`ValueError`, modelled as `none`. -/
def pyIntOfChars (l : List Char) : Option Int :=
  let t := pyStrip l
  let signed : Bool × List Char :=
    match t with
    | '-' :: rest => (true, rest)
    | '+' :: rest => (false, rest)
    | _ => (false, t)
  match pyDigitPart signed.2 with
  | some n => some (if signed.1 then -(n : Int) else (n : Int))
  | none => none

/-- Python's `int(s)` on a string. -/
def pyIntOfString (s : String) : Option Int :=
  pyIntOfChars s.data

/-- Python's `s.split(',')`: always at least one token; an empty string
yields one empty token. -/
def splitComma : List Char → List (List Char)
  | [] => [[]]
  | c :: rest =>
    if c = ',' then [] :: splitComma rest
    else
      match splitComma rest with
      | [] => [[c]]
      | tok :: toks => (c :: tok) :: toks

/-- Run `int(...)` over each token, aborting at the first failure —
the behaviour of the list comprehension in `_params_to_ints`. -/
def intsOfTokens : List (List Char) → Option (List Int)
  | [] => some []
  | tok :: rest =>
    match pyIntOfChars tok, intsOfTokens rest with
    | some v, some vs => some (v :: vs)
    | _, _ => none

/-- Model of `RecipeViewSet._params_to_ints`: `[int(str_id) for str_id in qs.split(',')]`.
`none` models the comprehension raising `ValueError` on a token that
`int` rejects. -/
def params_to_ints (qs : String) : Option (List Int) :=
  intsOfTokens (splitComma qs.data)

/-- Model of `queryset.filter(tags__id__in=tag_ids)`: the SQL join against the
recipe–tag link table produces one output row per matching link. -/
def recipesWithTagIn (db : DB) (qs : List Recipe) (ids : List Int) : List Recipe :=
  qs.flatMap fun r =>
    (db.recipeTags.filter fun l => l.1 == r.id && ids.contains (Int.ofNat l.2)).map fun _ => r

/-- Model of `queryset.filter(ingredients__id__in=ingredients_ids)`, same join shape. -/
def recipesWithIngredientIn (db : DB) (qs : List Recipe) (ids : List Int) : List Recipe :=
  qs.flatMap fun r =>
    (db.recipeIngredients.filter fun l => l.1 == r.id && ids.contains (Int.ofNat l.2)).map fun _ => r

/-- The `order_by('-id')` ordering: newest row (largest auto-increment
id, i.e. most recently created) first. -/
def recipeNewerFirst (a b : Recipe) : Prop := b.id ≤ a.id

instance : DecidableRel recipeNewerFirst :=
  fun a b => inferInstanceAs (Decidable (b.id ≤ a.id))

instance : IsTotal Recipe recipeNewerFirst :=
  ⟨fun a b => Nat.le_total b.id a.id⟩

instance : IsTrans Recipe recipeNewerFirst :=
  ⟨fun _ _ _ h1 h2 => Nat.le_trans h2 h1⟩

/-- The `order_by('name')` ordering on tags: ascending by name
(lexicographic on the character sequence). -/
def tagNameLe (a b : Tag) : Prop := a.name.data ≤ b.name.data

instance : DecidableRel tagNameLe :=
  fun a b => inferInstanceAs (Decidable (a.name.data ≤ b.name.data))

instance : IsTotal Tag tagNameLe := ⟨fun a b => le_total a.name.data b.name.data⟩

instance : IsTrans Tag tagNameLe := ⟨fun _ _ _ h1 h2 => le_trans h1 h2⟩

/-- The `order_by('name')` ordering on ingredients: ascending by name. -/
def ingredientNameLe (a b : Ingredient) : Prop := a.name.data ≤ b.name.data

instance : DecidableRel ingredientNameLe :=
  fun a b => inferInstanceAs (Decidable (a.name.data ≤ b.name.data))

instance : IsTotal Ingredient ingredientNameLe :=
  ⟨fun a b => le_total a.name.data b.name.data⟩

instance : IsTrans Ingredient ingredientNameLe := ⟨fun _ _ _ h1 h2 => le_trans h1 h2⟩

/-- Model of `.order_by('-id').distinct()` on a recipe queryset: the SQL
`SELECT DISTINCT … ORDER BY id DESC` removes duplicate rows and sorts. -/
def recipeOrderDistinct (qs : List Recipe) : List Recipe :=
  qs.dedup.insertionSort recipeNewerFirst

/-- The tail of `RecipeViewSet.get_queryset`:
`queryset.filter(user=self.request.user).order_by('-id').distinct()`. -/
def recipe_finalize (u : Nat) (qs : List Recipe) : List Recipe :=
  recipeOrderDistinct (qs.filter fun r => r.user == u)

/-- The `tags` query-parameter step of `RecipeViewSet.get_queryset`:
`if tags:` (absent or empty string means no filtering), else
`_params_to_ints` (which may raise) and the join filter. -/
def apply_tag_filter (db : DB) (qs : List Recipe) (param : Option String) :
    Except ApiError (List Recipe) :=
  match param with
  | none => .ok qs
  | some s =>
    if s = "" then .ok qs
    else
      match params_to_ints s with
      | some ids => .ok (recipesWithTagIn db qs ids)
      | none => .error .crash

/-- The `ingredients` query-parameter step of `RecipeViewSet.get_queryset`. -/
def apply_ingredient_filter (db : DB) (qs : List Recipe) (param : Option String) :
    Except ApiError (List Recipe) :=
  match param with
  | none => .ok qs
  | some s =>
    if s = "" then .ok qs
    else
      match params_to_ints s with
      | some ids => .ok (recipesWithIngredientIn db qs ids)
      | none => .error .crash

/-- Model of `RecipeViewSet.get_queryset`: start from `Recipe.objects.all()`,
apply the optional `tags` and `ingredients` id filters, then restrict
to the authenticated user's rows, order newest-first and deduplicate. -/
def recipe_get_queryset (db : DB) (u : Nat) (tagsParam ingredientsParam : Option String) :
    Except ApiError (List Recipe) :=
  match apply_tag_filter db db.recipes tagsParam with
  | .error e => .error e
  | .ok qs1 =>
    match apply_ingredient_filter db qs1 ingredientsParam with
    | .error e => .error e
    | .ok qs2 => .ok (recipe_finalize u qs2)

/-- Model of `bool(int(self.request.query_params.get('assigned_only', default=0)))`
in `BaseRecipeAttributeViewSet.get_queryset`: an absent parameter
defaults to the integer `0` (hence `false`); a present string goes
through `int(...)`, which raises (`crash`) on non-numeric input. -/
def parse_assigned_only (param : Option String) : Except ApiError Bool :=
  match param with
  | none => .ok false
  | some s =>
    match pyIntOfString s with
    | some n => .ok (n ≠ 0)
    | none => .error .crash

/-- Model of `queryset.filter(recipe__isnull=False)` on tags: the inner join
against the link table keeps rows with at least one recipe link,
one output row per link. -/
def tagsAssigned (db : DB) (qs : List Tag) : List Tag :=
  qs.flatMap fun t => (db.recipeTags.filter fun l => l.2 == t.id).map fun _ => t

/-- Model of `queryset.filter(recipe__isnull=False)` on ingredients. -/
def ingredientsAssigned (db : DB) (qs : List Ingredient) : List Ingredient :=
  qs.flatMap fun i => (db.recipeIngredients.filter fun l => l.2 == i.id).map fun _ => i

/-- Model of `BaseRecipeAttributeViewSet.get_queryset` with `self.queryset =
Tag.objects.all()` (the `TagViewSet` instantiation): optional
`assigned_only` restriction, then
`.filter(user=self.request.user).order_by('name').distinct()`. -/
def tag_get_queryset (db : DB) (u : Nat) (assignedParam : Option String) :
    Except ApiError (List Tag) :=
  match parse_assigned_only assignedParam with
  | .error e => .error e
  | .ok b =>
    let qs := if b then tagsAssigned db db.tags else db.tags
    .ok (((qs.filter fun t => t.user == u).dedup).insertionSort tagNameLe)

/-- Model of `BaseRecipeAttributeViewSet.get_queryset` for `IngredientViewSet`. -/
def ingredient_get_queryset (db : DB) (u : Nat) (assignedParam : Option String) :
    Except ApiError (List Ingredient) :=
  match parse_assigned_only assignedParam with
  | .error e => .error e
  | .ok b =>
    let qs := if b then ingredientsAssigned db db.ingredients else db.ingredients
    .ok (((qs.filter fun i => i.user == u).dedup).insertionSort ingredientNameLe)

/-- DRF `GenericAPIView.get_object` for the detail routes
(retrieve / update / destroy): `get_object_or_404` over the view's
`get_queryset()` result. The only permission class is
`IsAuthenticated`, so there is no object-level check and no 403 path:
a pk outside the owned queryset is a 404. -/
def recipe_detail_get_object (db : DB) (u : Nat) (pk : Nat) : Except ApiError Recipe :=
  match recipe_get_queryset db u none none with
  | .error e => .error e
  | .ok rs =>
    match rs.find? (fun r => r.id == pk) with
    | some r => .ok r
    | none => .error .notFound

/-- DRF `get_object` for `TagViewSet` detail routes (update / destroy). -/
def tag_detail_get_object (db : DB) (u : Nat) (pk : Nat) : Except ApiError Tag :=
  match tag_get_queryset db u none with
  | .error e => .error e
  | .ok ts =>
    match ts.find? (fun t => t.id == pk) with
    | some t => .ok t
    | none => .error .notFound

/-- DRF `get_object` for `IngredientViewSet` detail routes. -/
def ingredient_detail_get_object (db : DB) (u : Nat) (pk : Nat) : Except ApiError Ingredient :=
  match ingredient_get_queryset db u none with
  | .error e => .error e
  | .ok il =>
    match il.find? (fun i => i.id == pk) with
    | some i => .ok i
    | none => .error .notFound

/-- One element of a nested `tags` payload list (`TagSerializer` with
writable `name`; `id` is read-only, so validated data carries `name`). -/
structure TagSpec where
  name : String
deriving DecidableEq, Repr

/-- One element of a nested `ingredients` payload list. -/
structure IngredientSpec where
  name : String
deriving DecidableEq, Repr

/-- Model of `Tag.objects.get_or_create(user=authenticated_user, name=...)`:
return the matching row if one exists, else insert a fresh row with the
next auto-increment id and return it. -/
def tag_get_or_create (db : DB) (u : Nat) (n : String) : DB × Tag :=
  match db.tags.find? (fun t => t.user == u && t.name == n) with
  | some t => (db, t)
  | none =>
    let t : Tag := ⟨db.nextTagId, u, n⟩
    ({ db with tags := db.tags ++ [t], nextTagId := db.nextTagId + 1 }, t)

/-- Model of `Ingredient.objects.get_or_create(user=authenticated_user, name=...)`. -/
def ingredient_get_or_create (db : DB) (u : Nat) (n : String) : DB × Ingredient :=
  match db.ingredients.find? (fun i => i.user == u && i.name == n) with
  | some i => (db, i)
  | none =>
    let i : Ingredient := ⟨db.nextIngredientId, u, n⟩
    ({ db with ingredients := db.ingredients ++ [i],
               nextIngredientId := db.nextIngredientId + 1 }, i)

/-- Many-to-many `add`: inserts the link unless it is already present
(the link table is a set — `add` is idempotent). -/
def m2m_add (links : List (Nat × Nat)) (rid oid : Nat) : List (Nat × Nat) :=
  if (rid, oid) ∈ links then links else links ++ [(rid, oid)]

/-- Many-to-many `clear()` on one recipe's relation: drops every link
whose recipe side is `rid`. -/
def m2m_clear (links : List (Nat × Nat)) (rid : Nat) : List (Nat × Nat) :=
  links.filter fun l => l.1 ≠ rid

/-- Model of `RecipeSerializer._get_or_create_tags`: for each supplied spec,
get-or-create the tag scoped to the authenticated user and attach it
to the recipe's link set. -/
def get_or_create_tags (db : DB) (u : Nat) (specs : List TagSpec) (rid : Nat) : DB :=
  specs.foldl
    (fun db sp =>
      let (db1, t) := tag_get_or_create db u sp.name
      { db1 with recipeTags := m2m_add db1.recipeTags rid t.id })
    db

/-- Model of `RecipeDetailSerializer._get_or_create_ingredients`. -/
def get_or_create_ingredients (db : DB) (u : Nat) (specs : List IngredientSpec) (rid : Nat) : DB :=
  specs.foldl
    (fun db sp =>
      let (db1, i) := ingredient_get_or_create db u sp.name
      { db1 with recipeIngredients := m2m_add db1.recipeIngredients rid i.id })
    db

/-- Validated data of a recipe update (`partial=True` PATCH or PUT):
each scalar serializer field is present or absent, and each nested list
is `none` (key absent) or `some` (key present, possibly empty). -/
structure UpdatePayload where
  title : Option String := none
  time_minutes : Option Nat := none
  price : Option Int := none
  link : Option String := none
  description : Option String := none
  tags : Option (List TagSpec) := none
  ingredients : Option (List IngredientSpec) := none
deriving DecidableEq, Repr

/-- The `setattr(instance, attr, value)` loop of
`RecipeSerializer.update` over the remaining scalar validated data. -/
def applyScalars (r : Recipe) (p : UpdatePayload) : Recipe :=
  { r with
    title := p.title.getD r.title
    time_minutes := p.time_minutes.getD r.time_minutes
    price := p.price.getD r.price
    link := p.link.getD r.link
    description := p.description.getD r.description }

/-- Model of `instance.save()`: write the instance back over the table row with
its primary key. -/
def saveRecipe (recipes : List Recipe) (r : Recipe) : List Recipe :=
  recipes.map fun x => if x.id == r.id then r else x

/-- Model of `RecipeSerializer.update`: pop `tags`; when the key was present
clear the recipe's tag links and reattach via get-or-create; then apply
the scalar fields and save the instance. -/
def recipe_serializer_update (db : DB) (u : Nat) (inst : Recipe) (p : UpdatePayload) : DB :=
  let db1 :=
    match p.tags with
    | some specs =>
      let dbc := { db with recipeTags := m2m_clear db.recipeTags inst.id }
      get_or_create_tags dbc u specs inst.id
    | none => db
  { db1 with recipes := saveRecipe db1.recipes (applyScalars inst p) }

/-- Model of `RecipeDetailSerializer.update`: pop `ingredients`; when the key
was present clear the recipe's ingredient links and reattach via
get-or-create; then delegate to `RecipeSerializer.update` (with
`ingredients` no longer in the validated data). -/
def recipe_detail_serializer_update (db : DB) (u : Nat) (inst : Recipe) (p : UpdatePayload) : DB :=
  let db1 :=
    match p.ingredients with
    | some specs =>
      let dbc := { db with recipeIngredients := m2m_clear db.recipeIngredients inst.id }
      get_or_create_ingredients dbc u specs inst.id
    | none => db
  recipe_serializer_update db1 u inst { p with ingredients := none }

/-- The `ingredients` pop/clear/reattach prefix of
`RecipeDetailSerializer.update`, as a standalone function of the
popped value. -/
def ingredientPhase (db : DB) (u : Nat) (rid : Nat) :
    Option (List IngredientSpec) → DB
  | some specs =>
    get_or_create_ingredients
      { db with recipeIngredients := m2m_clear db.recipeIngredients rid } u specs rid
  | none => db

/-- Validated data of a recipe create: the scalar columns plus the
optional nested lists (`none` = key absent; `create` defaults an
absent list to `[]`). -/
structure CreatePayload where
  title : String
  time_minutes : Nat
  price : Int
  link : String := ""
  description : String := ""
  tags : Option (List TagSpec) := none
  ingredients : Option (List IngredientSpec) := none
deriving DecidableEq, Repr

/-- The recipe row `Recipe.objects.create` inserts for a given create
payload: fresh auto-increment id, owner = authenticated user. -/
def newRecipeOf (db : DB) (u : Nat) (p : CreatePayload) : Recipe :=
  ⟨db.nextRecipeId, u, p.title, p.time_minutes, p.price, p.link, p.description⟩

/-- Model of `Recipe.objects.create(**validated_data)` with the owner injected
by `RecipeViewSet.perform_create` (`serializer.save(user=self.request.user)`). -/
def recipe_objects_create (db : DB) (u : Nat) (p : CreatePayload) : DB × Recipe :=
  let r : Recipe := newRecipeOf db u p
  ({ db with recipes := db.recipes ++ [r], nextRecipeId := db.nextRecipeId + 1 }, r)

/-- Model of `RecipeSerializer.create`: pop `tags` (default `[]`), create the
recipe row, then get-or-create/attach the tags. -/
def recipe_serializer_create (db : DB) (u : Nat) (p : CreatePayload) : DB × Recipe :=
  let specs := p.tags.getD []
  let (db1, r) := recipe_objects_create db u p
  (get_or_create_tags db1 u specs r.id, r)

/-- Model of `RecipeDetailSerializer.create`: pop `ingredients` (default `[]`),
delegate to `RecipeSerializer.create`, then get-or-create/attach the
ingredients. -/
def recipe_detail_serializer_create (db : DB) (u : Nat) (p : CreatePayload) : DB × Recipe :=
  let specs := p.ingredients.getD []
  let (db1, r) := recipe_serializer_create db u p
  (get_or_create_ingredients db1 u specs r.id, r)

/-- A raw update request body before serializer validation: it may
carry `user` and `id` keys on top of the serializer's fields. -/
structure RawUpdatePayload where
  title : Option String := none
  time_minutes : Option Nat := none
  price : Option Int := none
  link : Option String := none
  description : Option String := none
  tags : Option (List TagSpec) := none
  ingredients : Option (List IngredientSpec) := none
  user : Option Nat := none
  id : Option Nat := none
deriving DecidableEq, Repr

/-- DRF `ModelSerializer` validation for `RecipeDetailSerializer`: only
the declared writable fields (`title`, `time_minutes`, `price`, `link`,
`description`, `tags`, `ingredients`) enter `validated_data`; `user` is
not in `Meta.fields` and `id` is in `read_only_fields`, so both are
dropped silently. -/
def validate_update_payload (raw : RawUpdatePayload) : UpdatePayload :=
  { title := raw.title
    time_minutes := raw.time_minutes
    price := raw.price
    link := raw.link
    description := raw.description
    tags := raw.tags
    ingredients := raw.ingredients }

/-- The update endpoint as the viewset runs it: validate the raw body,
then run `RecipeDetailSerializer.update` (the serializer class for the
`update` / `partial_update` actions) as the authenticated user `u`. -/
def recipe_update_via_api (db : DB) (u : Nat) (inst : Recipe) (raw : RawUpdatePayload) : DB :=
  recipe_detail_serializer_update db u inst (validate_update_payload raw)

/-- A recipe's current tag links. -/
def tagLinksOf (db : DB) (rid : Nat) : List (Nat × Nat) :=
  db.recipeTags.filter fun l => l.1 == rid

/-- A recipe's current ingredient links. -/
def ingredientLinksOf (db : DB) (rid : Nat) : List (Nat × Nat) :=
  db.recipeIngredients.filter fun l => l.1 == rid

/-!
Persisted intermediate states.  `serializers.py` contains no
`transaction.atomic` block (and no other transaction primitive), so
under Django's default autocommit every ORM call in
`RecipeSerializer.update` / `RecipeDetailSerializer.update` commits on
its own: if a later call fails, the database keeps the state left by
the last completed call.  The following definitions list the database
state after each completed loop iteration / clear / save.
-/

/-- Database states after each iteration of the
`_get_or_create_tags` loop (one get-or-create plus one `add` per
supplied spec). -/
def tag_attach_states (db : DB) (u : Nat) (rid : Nat) : List TagSpec → List DB
  | [] => []
  | sp :: rest =>
    let (db1, t) := tag_get_or_create db u sp.name
    let db2 := { db1 with recipeTags := m2m_add db1.recipeTags rid t.id }
    db2 :: tag_attach_states db2 u rid rest

/-- Database states after each iteration of the
`_get_or_create_ingredients` loop. -/
def ingredient_attach_states (db : DB) (u : Nat) (rid : Nat) : List IngredientSpec → List DB
  | [] => []
  | sp :: rest =>
    let (db1, i) := ingredient_get_or_create db u sp.name
    let db2 := { db1 with recipeIngredients := m2m_add db1.recipeIngredients rid i.id }
    db2 :: ingredient_attach_states db2 u rid rest

/-- The sequence of committed database states produced by
`RecipeDetailSerializer.update`: the state after the `ingredients`
`clear()` (when that key is present) and after each ingredient
attach, then the state after the `tags` `clear()` (when present) and
after each tag attach, then the state after `instance.save()`. -/
def recipe_detail_update_states (db : DB) (u : Nat) (inst : Recipe) (p : UpdatePayload) :
    List DB :=
  let ingredientPart : List DB × DB :=
    match p.ingredients with
    | some specs =>
      let dbc := { db with recipeIngredients := m2m_clear db.recipeIngredients inst.id }
      (dbc :: ingredient_attach_states dbc u inst.id specs,
       get_or_create_ingredients dbc u specs inst.id)
    | none => ([], db)
  let dbI := ingredientPart.2
  let tagPart : List DB × DB :=
    match p.tags with
    | some specs =>
      let dbc := { dbI with recipeTags := m2m_clear dbI.recipeTags inst.id }
      (dbc :: tag_attach_states dbc u inst.id specs,
       get_or_create_tags dbc u specs inst.id)
    | none => ([], dbI)
  let dbT := tagPart.2
  ingredientPart.1 ++ tagPart.1 ++
    [{ dbT with recipes := saveRecipe dbT.recipes (applyScalars inst p) }]

/-- The serializer classes a `RecipeViewSet` action can select. -/
inductive SerializerClass where
  | recipeSer
  | recipeDetailSer
  | recipeImageSer
deriving DecidableEq, Repr

/-- Model of `RecipeSerializer.Meta.fields`. -/
def recipeSerializerFields : List String :=
  ["id", "title", "time_minutes", "price", "link", "tags"]

/-- Model of `RecipeDetailSerializer.Meta.fields =
RecipeSerializer.Meta.fields + ['description', 'ingredients']`. -/
def recipeDetailSerializerFields : List String :=
  recipeSerializerFields ++ ["description", "ingredients"]

/-- Model of `RecipeImageSerializer.Meta.fields`. -/
def recipeImageSerializerFields : List String :=
  ["id", "image"]

/-- The field list each serializer class renders. -/
def serializerFields : SerializerClass → List String
  | .recipeSer => recipeSerializerFields
  | .recipeDetailSer => recipeDetailSerializerFields
  | .recipeImageSer => recipeImageSerializerFields

/-- Model of `RecipeViewSet.get_serializer_class`: `RecipeSerializer` for the
`list` action, `RecipeImageSerializer` for `upload_image`, otherwise
the class attribute `serializer_class = RecipeDetailSerializer`. -/
def recipe_get_serializer_class (action : String) : SerializerClass :=
  if action = "list" then .recipeSer
  else if action = "upload_image" then .recipeImageSer
  else .recipeDetailSer

/-- Modelled from the spec: `core/models.py` (the `Recipe` model and
its image-field lifecycle) is not under `src/` — only its tests are —
so the storage effect of deleting a recipe or clearing its image field
is taken from the spec sentence "Deleting a recipe (or explicitly
clearing the field) removes the previously attached file from
storage."  `files` is the set of stored file names and `image` the
recipe's image reference. -/
structure ImageStore where
  files : List String
  image : Option String
deriving DecidableEq, Repr

/-- Modelled from the spec: deleting the recipe removes the attached
file (if any) from storage. -/
def delete_recipe_storage_effect (st : ImageStore) : ImageStore :=
  { files :=
      match st.image with
      | some f => st.files.filter fun g => g ≠ f
      | none => st.files
    image := none }

/-- Modelled from the spec: explicitly clearing the image field
removes the previously attached file from storage. -/
def clear_image_field (st : ImageStore) : ImageStore :=
  delete_recipe_storage_effect st

/-- Sample relational state with two users' data, used by the witness
theorems: user 1 owns recipes 1 and 2, tags 1 `Vegan` and 2 `Dessert`
and ingredient 1; user 2 owns recipe 3, tag 3 and ingredient 2. -/
def sampleDB : DB where
  recipes :=
    [⟨1, 1, "Pasta", 10, 5, "", ""⟩,
     ⟨2, 1, "Soup", 20, 7, "", ""⟩,
     ⟨3, 2, "Cake", 30, 9, "", ""⟩]
  tags := [⟨1, 1, "Vegan"⟩, ⟨2, 1, "Dessert"⟩, ⟨3, 2, "Vegan"⟩]
  ingredients := [⟨1, 1, "Salt"⟩, ⟨2, 2, "Sugar"⟩]
  recipeTags := [(1, 1), (2, 1), (2, 2), (3, 3)]
  recipeIngredients := [(1, 1), (3, 2)]
  nextRecipeId := 4
  nextTagId := 4
  nextIngredientId := 3

/-- Per-user tag-name uniqueness: at most one tag row per name for the
given user.  `get_or_create` relies on this (its underlying `get`
raises `MultipleObjectsReturned` otherwise) and maintains it. -/
def TagNamesUnique (u : Nat) (l : List Tag) : Prop :=
  ∀ t1 ∈ l, ∀ t2 ∈ l, t1.user = u → t2.user = u → t1.name = t2.name → t1 = t2

/-- Per-user ingredient-name uniqueness. -/
def IngredientNamesUnique (u : Nat) (l : List Ingredient) : Prop :=
  ∀ i1 ∈ l, ∀ i2 ∈ l, i1.user = u → i2.user = u → i1.name = i2.name → i1 = i2

instance (u : Nat) (l : List Tag) : Decidable (TagNamesUnique u l) := by
  unfold TagNamesUnique
  infer_instance

instance (u : Nat) (l : List Ingredient) : Decidable (IngredientNamesUnique u l) := by
  unfold IngredientNamesUnique
  infer_instance

/-- Database well-formedness guaranteed by the store: primary keys are
unique and below the auto-increment counters, and every link's foreign
keys reference existing rows. -/
def WF (db : DB) : Prop :=
  (db.recipes.map Recipe.id).Nodup ∧
  (db.tags.map Tag.id).Nodup ∧
  (db.ingredients.map Ingredient.id).Nodup ∧
  (∀ r ∈ db.recipes, r.id < db.nextRecipeId) ∧
  (∀ t ∈ db.tags, t.id < db.nextTagId) ∧
  (∀ i ∈ db.ingredients, i.id < db.nextIngredientId) ∧
  (∀ p ∈ db.recipeTags,
    (∃ r ∈ db.recipes, r.id = p.1) ∧ (∃ t ∈ db.tags, t.id = p.2)) ∧
  (∀ p ∈ db.recipeIngredients,
    (∃ r ∈ db.recipes, r.id = p.1) ∧ (∃ i ∈ db.ingredients, i.id = p.2))

/-- The ownership scope invariant on links: a recipe's tag/ingredient
links only reference rows owned by the same user as the recipe. -/
def LinkScopeOK (db : DB) : Prop :=
  (∀ p ∈ db.recipeTags, ∀ r ∈ db.recipes, r.id = p.1 →
    ∀ t ∈ db.tags, t.id = p.2 → t.user = r.user) ∧
  (∀ p ∈ db.recipeIngredients, ∀ r ∈ db.recipes, r.id = p.1 →
    ∀ i ∈ db.ingredients, i.id = p.2 → i.user = r.user)

instance (db : DB) : Decidable (WF db) := by
  unfold WF
  infer_instance

instance (db : DB) : Decidable (LinkScopeOK db) := by
  unfold LinkScopeOK
  infer_instance

/-! ### Helper lemmas about the query layer -/

theorem mem_recipe_finalize {u : Nat} {qs : List Recipe} {r : Recipe} :
    r ∈ recipe_finalize u qs ↔ r ∈ qs ∧ r.user = u := by
  simp [recipe_finalize, recipeOrderDistinct, List.mem_insertionSort,
    List.mem_dedup, List.mem_filter]

theorem nodup_recipe_finalize (u : Nat) (qs : List Recipe) :
    (recipe_finalize u qs).Nodup :=
  (List.perm_insertionSort recipeNewerFirst _).nodup_iff.mpr
    (List.nodup_dedup _)

theorem sorted_recipe_finalize (u : Nat) (qs : List Recipe) :
    List.Sorted recipeNewerFirst (recipe_finalize u qs) :=
  List.sorted_insertionSort recipeNewerFirst _

theorem mem_recipesWithTagIn {db : DB} {qs : List Recipe} {ids : List Int} {r : Recipe} :
    r ∈ recipesWithTagIn db qs ids ↔
      r ∈ qs ∧ ∃ l ∈ db.recipeTags, l.1 = r.id ∧ Int.ofNat l.2 ∈ ids := by
  simp only [recipesWithTagIn, List.mem_flatMap, List.mem_map, List.mem_filter,
    Bool.and_eq_true, beq_iff_eq]
  constructor
  · rintro ⟨r0, hr0, l, ⟨hl, h1, h2⟩, rfl⟩
    exact ⟨hr0, l, hl, h1, by simpa using h2⟩
  · rintro ⟨hr, l, hl, h1, h2⟩
    exact ⟨r, hr, l, ⟨hl, h1, by simpa using h2⟩, rfl⟩

theorem mem_recipesWithIngredientIn {db : DB} {qs : List Recipe} {ids : List Int} {r : Recipe} :
    r ∈ recipesWithIngredientIn db qs ids ↔
      r ∈ qs ∧ ∃ l ∈ db.recipeIngredients, l.1 = r.id ∧ Int.ofNat l.2 ∈ ids := by
  simp only [recipesWithIngredientIn, List.mem_flatMap, List.mem_map, List.mem_filter,
    Bool.and_eq_true, beq_iff_eq]
  constructor
  · rintro ⟨r0, hr0, l, ⟨hl, h1, h2⟩, rfl⟩
    exact ⟨hr0, l, hl, h1, by simpa using h2⟩
  · rintro ⟨hr, l, hl, h1, h2⟩
    exact ⟨r, hr, l, ⟨hl, h1, by simpa using h2⟩, rfl⟩

theorem mem_tagsAssigned {db : DB} {qs : List Tag} {t : Tag} :
    t ∈ tagsAssigned db qs ↔ t ∈ qs ∧ ∃ l ∈ db.recipeTags, l.2 = t.id := by
  simp only [tagsAssigned, List.mem_flatMap, List.mem_map, List.mem_filter, beq_iff_eq]
  constructor
  · rintro ⟨t0, ht0, l, ⟨hl, h1⟩, rfl⟩
    exact ⟨ht0, l, hl, h1⟩
  · rintro ⟨ht, l, hl, h1⟩
    exact ⟨t, ht, l, ⟨hl, h1⟩, rfl⟩

theorem mem_ingredientsAssigned {db : DB} {qs : List Ingredient} {i : Ingredient} :
    i ∈ ingredientsAssigned db qs ↔ i ∈ qs ∧ ∃ l ∈ db.recipeIngredients, l.2 = i.id := by
  simp only [ingredientsAssigned, List.mem_flatMap, List.mem_map, List.mem_filter, beq_iff_eq]
  constructor
  · rintro ⟨i0, hi0, l, ⟨hl, h1⟩, rfl⟩
    exact ⟨hi0, l, hl, h1⟩
  · rintro ⟨hi, l, hl, h1⟩
    exact ⟨i, hi, l, ⟨hl, h1⟩, rfl⟩

theorem recipe_get_queryset_ok {db : DB} {u : Nat} {tp ip : Option String}
    {rs : List Recipe} (h : recipe_get_queryset db u tp ip = .ok rs) :
    ∃ qs, rs = recipe_finalize u qs := by
  unfold recipe_get_queryset at h
  split at h
  · cases h
  · split at h
    · cases h
    · cases h
      exact ⟨_, rfl⟩

theorem tag_get_queryset_ok {db : DB} {u : Nat} {ap : Option String}
    {ts : List Tag} (h : tag_get_queryset db u ap = .ok ts) :
    ∃ qs : List Tag,
      ts = ((qs.filter fun t => t.user == u).dedup).insertionSort tagNameLe := by
  unfold tag_get_queryset at h
  cases hp : parse_assigned_only ap with
  | error e => rw [hp] at h; cases h
  | ok b =>
    rw [hp] at h
    cases h
    exact ⟨_, rfl⟩

theorem ingredient_get_queryset_ok {db : DB} {u : Nat} {ap : Option String}
    {il : List Ingredient} (h : ingredient_get_queryset db u ap = .ok il) :
    ∃ qs : List Ingredient,
      il = ((qs.filter fun i => i.user == u).dedup).insertionSort ingredientNameLe := by
  unfold ingredient_get_queryset at h
  cases hp : parse_assigned_only ap with
  | error e => rw [hp] at h; cases h
  | ok b =>
    rw [hp] at h
    cases h
    exact ⟨_, rfl⟩

theorem recipe_detail_get_object_eq (db : DB) (u pk : Nat) :
    recipe_detail_get_object db u pk =
      match (recipe_finalize u db.recipes).find? (fun r => r.id == pk) with
      | some r => .ok r
      | none => .error .notFound := rfl

theorem tag_detail_get_object_eq (db : DB) (u pk : Nat) :
    tag_detail_get_object db u pk =
      match (((db.tags.filter fun t => t.user == u).dedup).insertionSort
          tagNameLe).find? (fun t => t.id == pk) with
      | some t => .ok t
      | none => .error .notFound := rfl

theorem ingredient_detail_get_object_eq (db : DB) (u pk : Nat) :
    ingredient_detail_get_object db u pk =
      match (((db.ingredients.filter fun i => i.user == u).dedup).insertionSort
          ingredientNameLe).find? (fun i => i.id == pk) with
      | some i => .ok i
      | none => .error .notFound := rfl

/-! ### Claim C1 -/

/-- C1: for every authenticated user, the recipe, tag and
ingredient listing operations return only rows whose owning user equals
the requesting user, and any fetch/update/delete of another user's row
by id (every detail route resolves its object the same way) fails with
a not-found error — never with a forbidden error. -/
theorem C1_ownership_scoping (db : DB) (u pk : Nat) (tp ip ap : Option String) :
    (∀ rs, recipe_get_queryset db u tp ip = .ok rs → ∀ r ∈ rs, r.user = u) ∧
    (∀ ts, tag_get_queryset db u ap = .ok ts → ∀ t ∈ ts, t.user = u) ∧
    (∀ il, ingredient_get_queryset db u ap = .ok il → ∀ i ∈ il, i.user = u) ∧
    ((∀ r ∈ db.recipes, r.id = pk → r.user ≠ u) →
      recipe_detail_get_object db u pk = .error .notFound) ∧
    ((∀ t ∈ db.tags, t.id = pk → t.user ≠ u) →
      tag_detail_get_object db u pk = .error .notFound) ∧
    ((∀ i ∈ db.ingredients, i.id = pk → i.user ≠ u) →
      ingredient_detail_get_object db u pk = .error .notFound) ∧
    recipe_detail_get_object db u pk ≠ .error .forbidden ∧
    tag_detail_get_object db u pk ≠ .error .forbidden ∧
    ingredient_detail_get_object db u pk ≠ .error .forbidden := by
  refine ⟨?_, ?_, ?_, ?_, ?_, ?_, ?_, ?_, ?_⟩
  · intro rs h r hr
    obtain ⟨qs, rfl⟩ := recipe_get_queryset_ok h
    exact (mem_recipe_finalize.mp hr).2
  · intro ts h t ht
    obtain ⟨qs, rfl⟩ := tag_get_queryset_ok h
    have := List.mem_insertionSort tagNameLe |>.mp ht
    have := List.mem_dedup.mp this
    simpa using (List.mem_filter.mp this).2
  · intro il h i hi
    obtain ⟨qs, rfl⟩ := ingredient_get_queryset_ok h
    have := List.mem_insertionSort ingredientNameLe |>.mp hi
    have := List.mem_dedup.mp this
    simpa using (List.mem_filter.mp this).2
  · intro hother
    rw [recipe_detail_get_object_eq]
    have : (recipe_finalize u db.recipes).find? (fun r => r.id == pk) = none := by
      rw [List.find?_eq_none]
      intro r hr hpk
      have hm := mem_recipe_finalize.mp hr
      exact hother r hm.1 (by simpa using hpk) hm.2
    rw [this]
  · intro hother
    rw [tag_detail_get_object_eq]
    have : (((db.tags.filter fun t => t.user == u).dedup).insertionSort
        tagNameLe).find? (fun t => t.id == pk) = none := by
      rw [List.find?_eq_none]
      intro t ht hpk
      have := List.mem_insertionSort tagNameLe |>.mp ht
      have hm := List.mem_filter.mp (List.mem_dedup.mp this)
      exact hother t hm.1 (by simpa using hpk) (by simpa using hm.2)
    rw [this]
  · intro hother
    rw [ingredient_detail_get_object_eq]
    have : (((db.ingredients.filter fun i => i.user == u).dedup).insertionSort
        ingredientNameLe).find? (fun i => i.id == pk) = none := by
      rw [List.find?_eq_none]
      intro i hi hpk
      have := List.mem_insertionSort ingredientNameLe |>.mp hi
      have hm := List.mem_filter.mp (List.mem_dedup.mp this)
      exact hother i hm.1 (by simpa using hpk) (by simpa using hm.2)
    rw [this]
  · rw [recipe_detail_get_object_eq]
    split <;> simp
  · rw [tag_detail_get_object_eq]
    split <;> simp
  · rw [ingredient_detail_get_object_eq]
    split <;> simp

/-- Witness for C1: in `sampleDB`, recipe 3 belongs to user 2, so user
1 fetching/updating/deleting it gets a not-found error. -/
theorem C1_ownership_scoping_witness :
    recipe_detail_get_object sampleDB 1 3 = .error .notFound :=
  (C1_ownership_scoping sampleDB 1 3 none none none).2.2.2.1 (by decide)

/-! ### Claim C5 -/

/-- C5: for a recipe list request whose `tags` (resp.
`ingredients`) query parameter parses to the id list `ids`, the result
is exactly the requesting user's recipes linked to at least one of the
given ids, with no duplicate entries, ordered by descending id
(most-recently-created first, ids being assigned in creation order). -/
theorem C5_recipe_list_id_filter (db : DB) (u : Nat) (s : String) (ids : List Int)
    (hs : s ≠ "") (hp : params_to_ints s = some ids) :
    (recipe_get_queryset db u (some s) none =
      .ok (recipe_finalize u (recipesWithTagIn db db.recipes ids)) ∧
     (∀ r, r ∈ recipe_finalize u (recipesWithTagIn db db.recipes ids) ↔
        r ∈ db.recipes ∧ r.user = u ∧
          ∃ l ∈ db.recipeTags, l.1 = r.id ∧ Int.ofNat l.2 ∈ ids) ∧
     (recipe_finalize u (recipesWithTagIn db db.recipes ids)).Nodup ∧
     List.Sorted recipeNewerFirst (recipe_finalize u (recipesWithTagIn db db.recipes ids))) ∧
    (recipe_get_queryset db u none (some s) =
      .ok (recipe_finalize u (recipesWithIngredientIn db db.recipes ids)) ∧
     (∀ r, r ∈ recipe_finalize u (recipesWithIngredientIn db db.recipes ids) ↔
        r ∈ db.recipes ∧ r.user = u ∧
          ∃ l ∈ db.recipeIngredients, l.1 = r.id ∧ Int.ofNat l.2 ∈ ids) ∧
     (recipe_finalize u (recipesWithIngredientIn db db.recipes ids)).Nodup ∧
     List.Sorted recipeNewerFirst (recipe_finalize u (recipesWithIngredientIn db db.recipes ids))) := by
  refine ⟨⟨?_, ?_, nodup_recipe_finalize _ _, sorted_recipe_finalize _ _⟩,
          ⟨?_, ?_, nodup_recipe_finalize _ _, sorted_recipe_finalize _ _⟩⟩
  · simp [recipe_get_queryset, apply_tag_filter, apply_ingredient_filter, hs, hp]
  · intro r
    rw [mem_recipe_finalize, mem_recipesWithTagIn]
    tauto
  · simp [recipe_get_queryset, apply_tag_filter, apply_ingredient_filter, hs, hp]
  · intro r
    rw [mem_recipe_finalize, mem_recipesWithIngredientIn]
    tauto

/-- Witness for C5: in `sampleDB`, filtering user 1's recipes by tag
id 1 keeps exactly recipes 2 and 1 (both linked to tag 1), newest
first. -/
theorem C5_recipe_list_id_filter_witness :
    recipe_get_queryset sampleDB 1 (some "1") none =
      .ok (recipe_finalize 1 (recipesWithTagIn sampleDB sampleDB.recipes [1])) :=
  (C5_recipe_list_id_filter sampleDB 1 "1" [1] (by decide) (by decide)).1.1

/-! ### Claim C6 -/

/-- C6: for tag/ingredient list requests, when `assigned_only`
parses to true the result contains exactly the requesting user's rows
that are linked to at least one recipe (rows with zero links are
excluded), each exactly once even when linked to several recipes, and
is sorted ascending by name; the flag defaults to false when the
parameter is absent (every owned row, linked or not, is then listed). -/
theorem C6_assigned_only_filter (db : DB) (u : Nat) (ap : Option String)
    (hp : parse_assigned_only ap = .ok true) :
    (∀ ts, tag_get_queryset db u ap = .ok ts →
      (∀ t, t ∈ ts ↔ t ∈ db.tags ∧ t.user = u ∧ ∃ l ∈ db.recipeTags, l.2 = t.id) ∧
      ts.Nodup ∧ (∀ t ∈ ts, ts.count t = 1) ∧ List.Sorted tagNameLe ts) ∧
    (∀ il, ingredient_get_queryset db u ap = .ok il →
      (∀ i, i ∈ il ↔
        i ∈ db.ingredients ∧ i.user = u ∧ ∃ l ∈ db.recipeIngredients, l.2 = i.id) ∧
      il.Nodup ∧ (∀ i ∈ il, il.count i = 1) ∧ List.Sorted ingredientNameLe il) ∧
    parse_assigned_only none = .ok false ∧
    (∀ ts, tag_get_queryset db u none = .ok ts →
      (∀ t, t ∈ ts ↔ t ∈ db.tags ∧ t.user = u) ∧ List.Sorted tagNameLe ts) ∧
    (∀ il, ingredient_get_queryset db u none = .ok il →
      (∀ i, i ∈ il ↔ i ∈ db.ingredients ∧ i.user = u) ∧
      List.Sorted ingredientNameLe il) := by
  have e1 : tag_get_queryset db u ap =
      .ok ((((tagsAssigned db db.tags).filter
        fun t => t.user == u).dedup).insertionSort tagNameLe) := by
    simp [tag_get_queryset, hp]
  have e2 : ingredient_get_queryset db u ap =
      .ok ((((ingredientsAssigned db db.ingredients).filter
        fun i => i.user == u).dedup).insertionSort ingredientNameLe) := by
    simp [ingredient_get_queryset, hp]
  refine ⟨?_, ?_, rfl, ?_, ?_⟩
  · intro ts h
    rw [e1] at h
    cases h
    have hnd : ((((tagsAssigned db db.tags).filter
        fun t => t.user == u).dedup).insertionSort tagNameLe).Nodup :=
      (List.perm_insertionSort tagNameLe _).nodup_iff.mpr (List.nodup_dedup _)
    refine ⟨?_, hnd, fun t ht => List.count_eq_one_of_mem hnd ht,
      List.sorted_insertionSort tagNameLe _⟩
    intro t
    rw [List.mem_insertionSort, List.mem_dedup, List.mem_filter, mem_tagsAssigned]
    simp only [beq_iff_eq]
    tauto
  · intro il h
    rw [e2] at h
    cases h
    have hnd : ((((ingredientsAssigned db db.ingredients).filter
        fun i => i.user == u).dedup).insertionSort ingredientNameLe).Nodup :=
      (List.perm_insertionSort ingredientNameLe _).nodup_iff.mpr (List.nodup_dedup _)
    refine ⟨?_, hnd, fun i hi => List.count_eq_one_of_mem hnd hi,
      List.sorted_insertionSort ingredientNameLe _⟩
    intro i
    rw [List.mem_insertionSort, List.mem_dedup, List.mem_filter, mem_ingredientsAssigned]
    simp only [beq_iff_eq]
    tauto
  · intro ts h
    have : ts = ((db.tags.filter fun t => t.user == u).dedup).insertionSort tagNameLe := by
      have h0 : tag_get_queryset db u none =
          .ok (((db.tags.filter fun t => t.user == u).dedup).insertionSort tagNameLe) := rfl
      rw [h0] at h
      cases h
      rfl
    subst this
    refine ⟨?_, List.sorted_insertionSort tagNameLe _⟩
    intro t
    rw [List.mem_insertionSort, List.mem_dedup, List.mem_filter]
    simp [beq_iff_eq]
  · intro il h
    have : il = ((db.ingredients.filter fun i => i.user == u).dedup).insertionSort
        ingredientNameLe := by
      have h0 : ingredient_get_queryset db u none =
          .ok (((db.ingredients.filter fun i => i.user == u).dedup).insertionSort
            ingredientNameLe) := rfl
      rw [h0] at h
      cases h
      rfl
    subst this
    refine ⟨?_, List.sorted_insertionSort ingredientNameLe _⟩
    intro i
    rw [List.mem_insertionSort, List.mem_dedup, List.mem_filter]
    simp [beq_iff_eq]

/-- Witness for C6: in `sampleDB` with `assigned_only=1`, user 1's tag
list is `Dessert` (tag 2, linked to recipe 2) then `Vegan` (tag 1,
linked to recipes 1 and 2 but listed once), ascending by name. -/
theorem C6_assigned_only_filter_witness :
    List.Sorted tagNameLe [Tag.mk 2 1 "Dessert", Tag.mk 1 1 "Vegan"] :=
  (((C6_assigned_only_filter sampleDB 1 (some "1") (by decide)).1
    [Tag.mk 2 1 "Dessert", Tag.mk 1 1 "Vegan"] (by decide)).2.2.2)

/-! ### Claim C8 -/

/-- Boundary behaviour of the embedded `int()`, matching CPython on
the delicate cases: underscore grouping per PEP 515 (`1_0` is 10 but
`_1`, `1_` and `1__0` raise), Unicode decimal digits (Arabic-Indic
`١٢` and fullwidth `１０` parse), Unicode whitespace stripping
(no-break space around `10` is accepted), and signs (`-1_0`, `+7`
parse; a bare sign or an inner space raises). -/
theorem pyIntOfString_boundary :
    pyIntOfString "1_0" = some 10 ∧
    pyIntOfString "_1" = none ∧
    pyIntOfString "1_" = none ∧
    pyIntOfString "1__0" = none ∧
    pyIntOfString "١٢" = some 12 ∧
    pyIntOfString "１０" = some 10 ∧
    pyIntOfString " 10 " = some 10 ∧
    pyIntOfString "　12 " = some 12 ∧
    pyIntOfString "-1_0" = some (-10) ∧
    pyIntOfString "+7" = some 7 ∧
    pyIntOfString "-" = none ∧
    pyIntOfString "- 1" = none ∧
    pyIntOfString "" = none ∧
    pyIntOfString "abc" = none := by
  decide

/-- C9 (modelled from the spec: `core/models.py` is not under
`src/`): for every recipe with an attached image file, deleting the
recipe — or explicitly clearing the image field — removes the
previously attached file from storage. -/
theorem C9_image_file_removed (st : ImageStore) (f : String) (h : st.image = some f) :
    f ∉ (delete_recipe_storage_effect st).files ∧ f ∉ (clear_image_field st).files := by
  unfold clear_image_field delete_recipe_storage_effect
  rw [h]
  constructor <;>
    · intro hc
      have := (List.mem_filter.mp hc).2
      simp at this

/-- Witness for C9: the stored file `uploads/recipe/a.jpg` is gone
after the recipe holding it is deleted. -/
theorem C9_image_file_removed_witness :
    "uploads/recipe/a.jpg" ∉
      (delete_recipe_storage_effect
        ⟨["uploads/recipe/a.jpg", "uploads/recipe/b.png"],
         some "uploads/recipe/a.jpg"⟩).files :=
  (C9_image_file_removed
    ⟨["uploads/recipe/a.jpg", "uploads/recipe/b.png"],
     some "uploads/recipe/a.jpg"⟩ "uploads/recipe/a.jpg" rfl).1

/-! ### Claim C10 -/

/-- C10: the recipe list action serializes with
`RecipeSerializer`, whose field set is exactly id, title,
time_minutes, price, link and tags — no description and no
ingredients; every action other than `list` and `upload_image`
(retrieve / create / update / partial_update) uses
`RecipeDetailSerializer`, which extends those fields with description
and ingredients. -/
theorem C10_list_vs_detail_fields (a : String)
    (h1 : a ≠ "list") (h2 : a ≠ "upload_image") :
    recipe_get_serializer_class "list" = .recipeSer ∧
    serializerFields .recipeSer =
      ["id", "title", "time_minutes", "price", "link", "tags"] ∧
    "description" ∉ serializerFields .recipeSer ∧
    "ingredients" ∉ serializerFields .recipeSer ∧
    recipe_get_serializer_class a = .recipeDetailSer ∧
    "description" ∈ serializerFields .recipeDetailSer ∧
    "ingredients" ∈ serializerFields .recipeDetailSer ∧
    serializerFields .recipeDetailSer =
      serializerFields .recipeSer ++ ["description", "ingredients"] := by
  refine ⟨rfl, rfl, by decide, by decide, ?_, by decide, by decide, rfl⟩
  simp [recipe_get_serializer_class, h1, h2]

/-- Witness for C10: the retrieve action uses the detail serializer. -/
theorem C10_list_vs_detail_fields_witness :
    recipe_get_serializer_class "retrieve" = .recipeDetailSer :=
  (C10_list_vs_detail_fields "retrieve" (by decide) (by decide)).2.2.2.2.1

/-! ### Helper lemmas about many-to-many `add`/`clear` -/

theorem mem_m2m_add {L : List (Nat × Nat)} {r i : Nat} {p : Nat × Nat} :
    p ∈ m2m_add L r i ↔ p ∈ L ∨ p = (r, i) := by
  unfold m2m_add
  split
  · constructor
    · exact fun h => Or.inl h
    · rintro (h | rfl)
      · exact h
      · assumption
  · simp [List.mem_append]

theorem self_mem_m2m_add (L : List (Nat × Nat)) (r i : Nat) :
    (r, i) ∈ m2m_add L r i :=
  mem_m2m_add.mpr (Or.inr rfl)

theorem m2m_add_idem (L : List (Nat × Nat)) (r i : Nat) :
    m2m_add (m2m_add L r i) r i = m2m_add L r i := by
  have h : (r, i) ∈ m2m_add L r i := self_mem_m2m_add L r i
  show (if (r, i) ∈ m2m_add L r i then m2m_add L r i
        else m2m_add L r i ++ [(r, i)]) = m2m_add L r i
  rw [if_pos h]

theorem nodup_m2m_add {L : List (Nat × Nat)} (r i : Nat) (h : L.Nodup) :
    (m2m_add L r i).Nodup := by
  unfold m2m_add
  split
  · exact h
  · rename_i hmem
    simp [List.nodup_append, h, hmem]

theorem not_mem_m2m_clear (L : List (Nat × Nat)) (rid oid : Nat) :
    (rid, oid) ∉ m2m_clear L rid := by
  intro h
  have := (List.mem_filter.mp h).2
  simp at this

theorem mem_of_mem_m2m_clear {L : List (Nat × Nat)} {rid : Nat} {p : Nat × Nat}
    (h : p ∈ m2m_clear L rid) : p ∈ L :=
  (List.mem_filter.mp h).1

theorem tagLinks_of_clear (L : List (Nat × Nat)) (rid : Nat) :
    (m2m_clear L rid).filter (fun l => l.1 == rid) = [] := by
  rw [List.filter_eq_nil_iff]
  intro p hp
  have := (List.mem_filter.mp hp).2
  simp_all

/-! ### Helper lemmas about tag reconciliation -/

theorem find?_tag_props {l : List Tag} {u : Nat} {n : String} {t0 : Tag}
    (hf : l.find? (fun t => t.user == u && t.name == n) = some t0) :
    t0 ∈ l ∧ t0.user = u ∧ t0.name = n := by
  have h1 := List.mem_of_find?_eq_some hf
  have h2 := List.find?_some hf
  simp only [Bool.and_eq_true, beq_iff_eq] at h2
  exact ⟨h1, h2.1, h2.2⟩

theorem get_or_create_tags_nil (db : DB) (u rid : Nat) :
    get_or_create_tags db u [] rid = db := rfl

theorem get_or_create_tags_cons_found {db : DB} {u : Nat} {sp : TagSpec} {t0 : Tag}
    (hf : db.tags.find? (fun t => t.user == u && t.name == sp.name) = some t0)
    (rest : List TagSpec) (rid : Nat) :
    get_or_create_tags db u (sp :: rest) rid =
      get_or_create_tags { db with recipeTags := m2m_add db.recipeTags rid t0.id }
        u rest rid := by
  simp [get_or_create_tags, tag_get_or_create, hf]

theorem get_or_create_tags_cons_created {db : DB} {u : Nat} {sp : TagSpec}
    (hf : db.tags.find? (fun t => t.user == u && t.name == sp.name) = none)
    (rest : List TagSpec) (rid : Nat) :
    get_or_create_tags db u (sp :: rest) rid =
      get_or_create_tags
        { db with tags := db.tags ++ [⟨db.nextTagId, u, sp.name⟩],
                  nextTagId := db.nextTagId + 1,
                  recipeTags := m2m_add db.recipeTags rid db.nextTagId }
        u rest rid := by
  simp [get_or_create_tags, tag_get_or_create, hf]

theorem get_or_create_tags_untouched (u rid : Nat) (specs : List TagSpec) :
    ∀ db : DB,
      (get_or_create_tags db u specs rid).recipes = db.recipes ∧
      (get_or_create_tags db u specs rid).ingredients = db.ingredients ∧
      (get_or_create_tags db u specs rid).recipeIngredients = db.recipeIngredients ∧
      (get_or_create_tags db u specs rid).nextRecipeId = db.nextRecipeId ∧
      (get_or_create_tags db u specs rid).nextIngredientId = db.nextIngredientId := by
  induction specs with
  | nil => exact fun db => ⟨rfl, rfl, rfl, rfl, rfl⟩
  | cons sp rest ih =>
    intro db
    cases hf : db.tags.find? (fun t => t.user == u && t.name == sp.name) with
    | some t0 =>
      rw [get_or_create_tags_cons_found hf]
      exact ih _
    | none =>
      rw [get_or_create_tags_cons_created hf]
      exact ih _

theorem get_or_create_tags_grow (u rid : Nat) (specs : List TagSpec) :
    ∀ db : DB,
      ∃ newT, (get_or_create_tags db u specs rid).tags = db.tags ++ newT ∧
        ∀ x ∈ newT, x.user = u ∧ x.name ∈ specs.map TagSpec.name := by
  induction specs with
  | nil => exact fun db => ⟨[], by simp [get_or_create_tags_nil], by simp⟩
  | cons sp rest ih =>
    intro db
    cases hf : db.tags.find? (fun t => t.user == u && t.name == sp.name) with
    | some t0 =>
      rw [get_or_create_tags_cons_found hf]
      obtain ⟨newT, h1, h2⟩ := ih _
      exact ⟨newT, h1, fun x hx => ⟨(h2 x hx).1, by simp [(h2 x hx).2]⟩⟩
    | none =>
      rw [get_or_create_tags_cons_created hf]
      obtain ⟨newT, h1, h2⟩ := ih
        { db with tags := db.tags ++ [⟨db.nextTagId, u, sp.name⟩],
                  nextTagId := db.nextTagId + 1,
                  recipeTags := m2m_add db.recipeTags rid db.nextTagId }
      refine ⟨⟨db.nextTagId, u, sp.name⟩ :: newT, ?_, ?_⟩
      · rw [h1]
        simp
      · intro x hx
        rcases List.mem_cons.mp hx with rfl | hx
        · exact ⟨rfl, by simp⟩
        · exact ⟨(h2 x hx).1, by simp [(h2 x hx).2]⟩

theorem get_or_create_tags_tags_mono {u rid : Nat} {specs : List TagSpec} {db : DB}
    {x : Tag} (hx : x ∈ db.tags) : x ∈ (get_or_create_tags db u specs rid).tags := by
  obtain ⟨newT, h1, _⟩ := get_or_create_tags_grow u rid specs db
  rw [h1]
  exact List.mem_append.mpr (Or.inl hx)

theorem get_or_create_tags_links_mono (u rid : Nat) (specs : List TagSpec) :
    ∀ db : DB, ∀ p ∈ db.recipeTags, p ∈ (get_or_create_tags db u specs rid).recipeTags := by
  induction specs with
  | nil => exact fun db p hp => hp
  | cons sp rest ih =>
    intro db p hp
    cases hf : db.tags.find? (fun t => t.user == u && t.name == sp.name) with
    | some t0 =>
      rw [get_or_create_tags_cons_found hf]
      exact ih _ p (mem_m2m_add.mpr (Or.inl hp))
    | none =>
      rw [get_or_create_tags_cons_created hf]
      exact ih _ p (mem_m2m_add.mpr (Or.inl hp))

theorem TagNamesUnique.append_new_tag {u : Nat} {l : List Tag} {n : String}
    (h : TagNamesUnique u l)
    (hf : l.find? (fun t => t.user == u && t.name == n) = none) (newId : Nat) :
    TagNamesUnique u (l ++ [⟨newId, u, n⟩]) := by
  intro t1 h1 t2 h2 hu1 hu2 hn
  have hnone := List.find?_eq_none.mp hf
  rcases List.mem_append.mp h1 with h1 | h1 <;> rcases List.mem_append.mp h2 with h2 | h2
  · exact h t1 h1 t2 h2 hu1 hu2 hn
  · exfalso
    have h2' : t2 = ⟨newId, u, n⟩ := by simpa using h2
    have hn1 : t1.name = n := by rw [hn, h2']
    exact hnone t1 h1 (by simp [hu1, hn1])
  · exfalso
    have h1' : t1 = ⟨newId, u, n⟩ := by simpa using h1
    have hn2 : t2.name = n := by rw [← hn, h1']
    exact hnone t2 h2 (by simp [hu2, hn2])
  · have h1' : t1 = ⟨newId, u, n⟩ := by simpa using h1
    have h2' : t2 = ⟨newId, u, n⟩ := by simpa using h2
    rw [h1', h2']

theorem get_or_create_tags_uniq (u rid : Nat) (specs : List TagSpec) :
    ∀ db : DB, TagNamesUnique u db.tags →
      TagNamesUnique u (get_or_create_tags db u specs rid).tags := by
  induction specs with
  | nil => exact fun db h => h
  | cons sp rest ih =>
    intro db h
    cases hf : db.tags.find? (fun t => t.user == u && t.name == sp.name) with
    | some t0 =>
      rw [get_or_create_tags_cons_found hf]
      exact ih _ h
    | none =>
      rw [get_or_create_tags_cons_created hf]
      exact ih _ (h.append_new_tag hf db.nextTagId)

theorem get_or_create_tags_links_char (u rid : Nat) (specs : List TagSpec) :
    ∀ db : DB, ∀ p ∈ (get_or_create_tags db u specs rid).recipeTags,
      p ∈ db.recipeTags ∨
        (p.1 = rid ∧ ∃ t ∈ (get_or_create_tags db u specs rid).tags,
          t.id = p.2 ∧ t.user = u ∧ t.name ∈ specs.map TagSpec.name) := by
  induction specs with
  | nil => exact fun db p hp => Or.inl hp
  | cons sp rest ih =>
    intro db p hp
    cases hf : db.tags.find? (fun t => t.user == u && t.name == sp.name) with
    | some t0 =>
      rw [get_or_create_tags_cons_found hf] at hp ⊢
      rcases ih _ p hp with hold | ⟨h1, t, ht, hid, hu, hn⟩
      · rcases mem_m2m_add.mp hold with hold | rfl
        · exact Or.inl hold
        · obtain ⟨ht0mem, ht0u, ht0n⟩ := find?_tag_props hf
          exact Or.inr ⟨rfl, t0, get_or_create_tags_tags_mono ht0mem, rfl, ht0u,
            by simp [ht0n]⟩
      · exact Or.inr ⟨h1, t, ht, hid, hu, by simp [hn]⟩
    | none =>
      rw [get_or_create_tags_cons_created hf] at hp ⊢
      rcases ih _ p hp with hold | ⟨h1, t, ht, hid, hu, hn⟩
      · rcases mem_m2m_add.mp hold with hold | rfl
        · exact Or.inl hold
        · refine Or.inr ⟨rfl, ⟨db.nextTagId, u, sp.name⟩,
            get_or_create_tags_tags_mono (by simp), rfl, rfl, by simp⟩
      · exact Or.inr ⟨h1, t, ht, hid, hu, by simp [hn]⟩

theorem get_or_create_tags_links_complete (u rid : Nat) (specs : List TagSpec) :
    ∀ db : DB, TagNamesUnique u db.tags →
      ∀ t ∈ (get_or_create_tags db u specs rid).tags, t.user = u →
        t.name ∈ specs.map TagSpec.name →
        (rid, t.id) ∈ (get_or_create_tags db u specs rid).recipeTags := by
  induction specs with
  | nil =>
    intro db _ t _ _ hn
    simp at hn
  | cons sp rest ih =>
    intro db huniq t ht htu hn
    cases hf : db.tags.find? (fun t => t.user == u && t.name == sp.name) with
    | some t0 =>
      rw [get_or_create_tags_cons_found hf] at ht ⊢
      obtain ⟨ht0mem, ht0u, ht0n⟩ := find?_tag_props hf
      by_cases hname : t.name = sp.name
      · have huniqF : TagNamesUnique u (get_or_create_tags
            { db with recipeTags := m2m_add db.recipeTags rid t0.id }
            u rest rid).tags := get_or_create_tags_uniq u rid rest _ huniq
        have ht0fold := @get_or_create_tags_tags_mono u rid rest
          { db with recipeTags := m2m_add db.recipeTags rid t0.id } t0 ht0mem
        have heq : t = t0 := huniqF t ht t0 ht0fold htu ht0u (by rw [hname, ht0n])
        subst heq
        exact get_or_create_tags_links_mono u rid rest _ _ (self_mem_m2m_add _ _ _)
      · have hn' : t.name ∈ rest.map TagSpec.name := by
          rcases List.mem_map.mp hn with ⟨sp', hsp', hspn⟩
          rcases List.mem_cons.mp hsp' with rfl | hsp'
          · exact absurd hspn.symm hname
          · exact List.mem_map.mpr ⟨sp', hsp', hspn⟩
        exact ih { db with recipeTags := m2m_add db.recipeTags rid t0.id }
          huniq t ht htu hn'
    | none =>
      rw [get_or_create_tags_cons_created hf] at ht ⊢
      have huniq1 : TagNamesUnique u
          (db.tags ++ [⟨db.nextTagId, u, sp.name⟩]) :=
        huniq.append_new_tag hf db.nextTagId
      by_cases hname : t.name = sp.name
      · have huniqF := get_or_create_tags_uniq u rid rest
          { db with tags := db.tags ++ [⟨db.nextTagId, u, sp.name⟩],
                    nextTagId := db.nextTagId + 1,
                    recipeTags := m2m_add db.recipeTags rid db.nextTagId } huniq1
        have htNfold := @get_or_create_tags_tags_mono u rid rest
          { db with tags := db.tags ++ [⟨db.nextTagId, u, sp.name⟩],
                    nextTagId := db.nextTagId + 1,
                    recipeTags := m2m_add db.recipeTags rid db.nextTagId }
          ⟨db.nextTagId, u, sp.name⟩ (by simp)
        have heq : t = ⟨db.nextTagId, u, sp.name⟩ :=
          huniqF t ht _ htNfold htu rfl (by rw [hname])
        subst heq
        exact get_or_create_tags_links_mono u rid rest _ _ (self_mem_m2m_add _ _ _)
      · have hn' : t.name ∈ rest.map TagSpec.name := by
          rcases List.mem_map.mp hn with ⟨sp', hsp', hspn⟩
          rcases List.mem_cons.mp hsp' with rfl | hsp'
          · exact absurd hspn.symm hname
          · exact List.mem_map.mpr ⟨sp', hsp', hspn⟩
        exact ih { db with tags := db.tags ++ [⟨db.nextTagId, u, sp.name⟩],
                           nextTagId := db.nextTagId + 1,
                           recipeTags := m2m_add db.recipeTags rid db.nextTagId }
          huniq1 t ht htu hn'

theorem get_or_create_tags_links_nodup (u rid : Nat) (specs : List TagSpec) :
    ∀ db : DB, db.recipeTags.Nodup → (get_or_create_tags db u specs rid).recipeTags.Nodup := by
  induction specs with
  | nil => exact fun db h => h
  | cons sp rest ih =>
    intro db h
    cases hf : db.tags.find? (fun t => t.user == u && t.name == sp.name) with
    | some t0 =>
      rw [get_or_create_tags_cons_found hf]
      exact ih _ (nodup_m2m_add _ _ h)
    | none =>
      rw [get_or_create_tags_cons_created hf]
      exact ih _ (nodup_m2m_add _ _ h)

theorem get_or_create_tags_fresh (u rid : Nat) (specs : List TagSpec) :
    ∀ db : DB, (∀ x ∈ db.tags, x.id < db.nextTagId) →
      (∀ x ∈ (get_or_create_tags db u specs rid).tags,
        x.id < (get_or_create_tags db u specs rid).nextTagId) ∧
      db.nextTagId ≤ (get_or_create_tags db u specs rid).nextTagId ∧
      ((db.tags.map Tag.id).Nodup →
        ((get_or_create_tags db u specs rid).tags.map Tag.id).Nodup) ∧
      (∀ x ∈ (get_or_create_tags db u specs rid).tags,
        x ∈ db.tags ∨ db.nextTagId ≤ x.id) := by
  induction specs with
  | nil => exact fun db h => ⟨h, le_refl _, fun hn => hn, fun x hx => Or.inl hx⟩
  | cons sp rest ih =>
    intro db h
    cases hf : db.tags.find? (fun t => t.user == u && t.name == sp.name) with
    | some t0 =>
      rw [get_or_create_tags_cons_found hf]
      exact ih _ h
    | none =>
      rw [get_or_create_tags_cons_created hf]
      have hb : ∀ x ∈ db.tags ++ [⟨db.nextTagId, u, sp.name⟩], x.id < db.nextTagId + 1 := by
        intro x hx
        rcases List.mem_append.mp hx with hx | hx
        · exact Nat.lt_succ_of_lt (h x hx)
        · have : x = ⟨db.nextTagId, u, sp.name⟩ := by simpa using hx
          rw [this]
          exact Nat.lt_succ_self _
      obtain ⟨ih1, ih2, ih3, ih4⟩ := ih
        { db with tags := db.tags ++ [⟨db.nextTagId, u, sp.name⟩],
                  nextTagId := db.nextTagId + 1,
                  recipeTags := m2m_add db.recipeTags rid db.nextTagId } hb
      refine ⟨ih1, le_trans (Nat.le_succ _) ih2, ?_, ?_⟩
      · intro hnd
        apply ih3
        simp only [List.map_append, List.map_cons, List.map_nil]
        rw [List.nodup_append]
        refine ⟨hnd, List.nodup_singleton _, ?_⟩
        intro a ha hb'
        have hb'' : a = db.nextTagId := by simpa using hb'
        rcases List.mem_map.mp ha with ⟨x, hx, rfl⟩
        exact absurd hb'' (Nat.ne_of_lt (h x hx))
      · intro x hx
        rcases ih4 x hx with hx' | hx'
        · rcases List.mem_append.mp hx' with hx'' | hx''
          · exact Or.inl hx''
          · have : x = ⟨db.nextTagId, u, sp.name⟩ := by simpa using hx''
            rw [this]
            exact Or.inr (le_refl _)
        · exact Or.inr (le_trans (Nat.le_succ _) hx')

theorem get_or_create_tags_all_owned (u rid : Nat) (specs : List TagSpec) :
    ∀ db : DB, (∀ sp ∈ specs, ∃ t ∈ db.tags, t.user = u ∧ t.name = sp.name) →
      (get_or_create_tags db u specs rid).tags = db.tags := by
  induction specs with
  | nil => exact fun db _ => rfl
  | cons sp rest ih =>
    intro db howned
    cases hf : db.tags.find? (fun t => t.user == u && t.name == sp.name) with
    | some t0 =>
      rw [get_or_create_tags_cons_found hf]
      exact ih _ fun sp' hsp' => howned sp' (List.mem_cons_of_mem _ hsp')
    | none =>
      exfalso
      obtain ⟨t, ht, htu, htn⟩ := howned sp (List.mem_cons_self _ _)
      exact List.find?_eq_none.mp hf t ht (by simp [htu, htn])

/-! ### Helper lemmas about ingredient reconciliation -/

theorem find?_ingredient_props {l : List Ingredient} {u : Nat} {n : String} {i0 : Ingredient}
    (hf : l.find? (fun t => t.user == u && t.name == n) = some i0) :
    i0 ∈ l ∧ i0.user = u ∧ i0.name = n := by
  have h1 := List.mem_of_find?_eq_some hf
  have h2 := List.find?_some hf
  simp only [Bool.and_eq_true, beq_iff_eq] at h2
  exact ⟨h1, h2.1, h2.2⟩

theorem get_or_create_ingredients_nil (db : DB) (u rid : Nat) :
    get_or_create_ingredients db u [] rid = db := rfl

theorem get_or_create_ingredients_cons_found {db : DB} {u : Nat} {sp : IngredientSpec} {i0 : Ingredient}
    (hf : db.ingredients.find? (fun t => t.user == u && t.name == sp.name) = some i0)
    (rest : List IngredientSpec) (rid : Nat) :
    get_or_create_ingredients db u (sp :: rest) rid =
      get_or_create_ingredients { db with recipeIngredients := m2m_add db.recipeIngredients rid i0.id }
        u rest rid := by
  simp [get_or_create_ingredients, ingredient_get_or_create, hf]

theorem get_or_create_ingredients_cons_created {db : DB} {u : Nat} {sp : IngredientSpec}
    (hf : db.ingredients.find? (fun t => t.user == u && t.name == sp.name) = none)
    (rest : List IngredientSpec) (rid : Nat) :
    get_or_create_ingredients db u (sp :: rest) rid =
      get_or_create_ingredients
        { db with ingredients := db.ingredients ++ [⟨db.nextIngredientId, u, sp.name⟩],
                  nextIngredientId := db.nextIngredientId + 1,
                  recipeIngredients := m2m_add db.recipeIngredients rid db.nextIngredientId }
        u rest rid := by
  simp [get_or_create_ingredients, ingredient_get_or_create, hf]

theorem get_or_create_ingredients_untouched (u rid : Nat) (specs : List IngredientSpec) :
    ∀ db : DB,
      (get_or_create_ingredients db u specs rid).recipes = db.recipes ∧
      (get_or_create_ingredients db u specs rid).tags = db.tags ∧
      (get_or_create_ingredients db u specs rid).recipeTags = db.recipeTags ∧
      (get_or_create_ingredients db u specs rid).nextRecipeId = db.nextRecipeId ∧
      (get_or_create_ingredients db u specs rid).nextTagId = db.nextTagId := by
  induction specs with
  | nil => exact fun db => ⟨rfl, rfl, rfl, rfl, rfl⟩
  | cons sp rest ih =>
    intro db
    cases hf : db.ingredients.find? (fun t => t.user == u && t.name == sp.name) with
    | some i0 =>
      rw [get_or_create_ingredients_cons_found hf]
      exact ih _
    | none =>
      rw [get_or_create_ingredients_cons_created hf]
      exact ih _

theorem get_or_create_ingredients_grow (u rid : Nat) (specs : List IngredientSpec) :
    ∀ db : DB,
      ∃ newT, (get_or_create_ingredients db u specs rid).ingredients = db.ingredients ++ newT ∧
        ∀ x ∈ newT, x.user = u ∧ x.name ∈ specs.map IngredientSpec.name := by
  induction specs with
  | nil => exact fun db => ⟨[], by simp [get_or_create_ingredients_nil], by simp⟩
  | cons sp rest ih =>
    intro db
    cases hf : db.ingredients.find? (fun t => t.user == u && t.name == sp.name) with
    | some i0 =>
      rw [get_or_create_ingredients_cons_found hf]
      obtain ⟨newT, h1, h2⟩ := ih _
      exact ⟨newT, h1, fun x hx => ⟨(h2 x hx).1, by simp [(h2 x hx).2]⟩⟩
    | none =>
      rw [get_or_create_ingredients_cons_created hf]
      obtain ⟨newT, h1, h2⟩ := ih
        { db with ingredients := db.ingredients ++ [⟨db.nextIngredientId, u, sp.name⟩],
                  nextIngredientId := db.nextIngredientId + 1,
                  recipeIngredients := m2m_add db.recipeIngredients rid db.nextIngredientId }
      refine ⟨⟨db.nextIngredientId, u, sp.name⟩ :: newT, ?_, ?_⟩
      · rw [h1]
        simp
      · intro x hx
        rcases List.mem_cons.mp hx with rfl | hx
        · exact ⟨rfl, by simp⟩
        · exact ⟨(h2 x hx).1, by simp [(h2 x hx).2]⟩

theorem get_or_create_ingredients_ings_mono {u rid : Nat} {specs : List IngredientSpec} {db : DB}
    {x : Ingredient} (hx : x ∈ db.ingredients) :
    x ∈ (get_or_create_ingredients db u specs rid).ingredients := by
  obtain ⟨newT, h1, _⟩ := get_or_create_ingredients_grow u rid specs db
  rw [h1]
  exact List.mem_append.mpr (Or.inl hx)

theorem get_or_create_ingredients_links_mono (u rid : Nat) (specs : List IngredientSpec) :
    ∀ db : DB, ∀ p ∈ db.recipeIngredients, p ∈ (get_or_create_ingredients db u specs rid).recipeIngredients := by
  induction specs with
  | nil => exact fun db p hp => hp
  | cons sp rest ih =>
    intro db p hp
    cases hf : db.ingredients.find? (fun t => t.user == u && t.name == sp.name) with
    | some i0 =>
      rw [get_or_create_ingredients_cons_found hf]
      exact ih _ p (mem_m2m_add.mpr (Or.inl hp))
    | none =>
      rw [get_or_create_ingredients_cons_created hf]
      exact ih _ p (mem_m2m_add.mpr (Or.inl hp))

theorem IngredientNamesUnique.append_new_ingredient {u : Nat} {l : List Ingredient} {n : String}
    (h : IngredientNamesUnique u l)
    (hf : l.find? (fun t => t.user == u && t.name == n) = none) (newId : Nat) :
    IngredientNamesUnique u (l ++ [⟨newId, u, n⟩]) := by
  intro t1 h1 t2 h2 hu1 hu2 hn
  have hnone := List.find?_eq_none.mp hf
  rcases List.mem_append.mp h1 with h1 | h1 <;> rcases List.mem_append.mp h2 with h2 | h2
  · exact h t1 h1 t2 h2 hu1 hu2 hn
  · exfalso
    have h2' : t2 = ⟨newId, u, n⟩ := by simpa using h2
    have hn1 : t1.name = n := by rw [hn, h2']
    exact hnone t1 h1 (by simp [hu1, hn1])
  · exfalso
    have h1' : t1 = ⟨newId, u, n⟩ := by simpa using h1
    have hn2 : t2.name = n := by rw [← hn, h1']
    exact hnone t2 h2 (by simp [hu2, hn2])
  · have h1' : t1 = ⟨newId, u, n⟩ := by simpa using h1
    have h2' : t2 = ⟨newId, u, n⟩ := by simpa using h2
    rw [h1', h2']

theorem get_or_create_ingredients_uniq (u rid : Nat) (specs : List IngredientSpec) :
    ∀ db : DB, IngredientNamesUnique u db.ingredients →
      IngredientNamesUnique u (get_or_create_ingredients db u specs rid).ingredients := by
  induction specs with
  | nil => exact fun db h => h
  | cons sp rest ih =>
    intro db h
    cases hf : db.ingredients.find? (fun t => t.user == u && t.name == sp.name) with
    | some i0 =>
      rw [get_or_create_ingredients_cons_found hf]
      exact ih _ h
    | none =>
      rw [get_or_create_ingredients_cons_created hf]
      exact ih _ (h.append_new_ingredient hf db.nextIngredientId)

theorem get_or_create_ingredients_links_char (u rid : Nat) (specs : List IngredientSpec) :
    ∀ db : DB, ∀ p ∈ (get_or_create_ingredients db u specs rid).recipeIngredients,
      p ∈ db.recipeIngredients ∨
        (p.1 = rid ∧ ∃ t ∈ (get_or_create_ingredients db u specs rid).ingredients,
          t.id = p.2 ∧ t.user = u ∧ t.name ∈ specs.map IngredientSpec.name) := by
  induction specs with
  | nil => exact fun db p hp => Or.inl hp
  | cons sp rest ih =>
    intro db p hp
    cases hf : db.ingredients.find? (fun t => t.user == u && t.name == sp.name) with
    | some i0 =>
      rw [get_or_create_ingredients_cons_found hf] at hp ⊢
      rcases ih _ p hp with hold | ⟨h1, t, ht, hid, hu, hn⟩
      · rcases mem_m2m_add.mp hold with hold | rfl
        · exact Or.inl hold
        · obtain ⟨hi0mem, hi0u, hi0n⟩ := find?_ingredient_props hf
          exact Or.inr ⟨rfl, i0, get_or_create_ingredients_ings_mono hi0mem, rfl, hi0u,
            by simp [hi0n]⟩
      · exact Or.inr ⟨h1, t, ht, hid, hu, by simp [hn]⟩
    | none =>
      rw [get_or_create_ingredients_cons_created hf] at hp ⊢
      rcases ih _ p hp with hold | ⟨h1, t, ht, hid, hu, hn⟩
      · rcases mem_m2m_add.mp hold with hold | rfl
        · exact Or.inl hold
        · refine Or.inr ⟨rfl, ⟨db.nextIngredientId, u, sp.name⟩,
            get_or_create_ingredients_ings_mono (by simp), rfl, rfl, by simp⟩
      · exact Or.inr ⟨h1, t, ht, hid, hu, by simp [hn]⟩

theorem get_or_create_ingredients_links_complete (u rid : Nat) (specs : List IngredientSpec) :
    ∀ db : DB, IngredientNamesUnique u db.ingredients →
      ∀ t ∈ (get_or_create_ingredients db u specs rid).ingredients, t.user = u →
        t.name ∈ specs.map IngredientSpec.name →
        (rid, t.id) ∈ (get_or_create_ingredients db u specs rid).recipeIngredients := by
  induction specs with
  | nil =>
    intro db _ t _ _ hn
    simp at hn
  | cons sp rest ih =>
    intro db huniq t ht htu hn
    cases hf : db.ingredients.find? (fun t => t.user == u && t.name == sp.name) with
    | some i0 =>
      rw [get_or_create_ingredients_cons_found hf] at ht ⊢
      obtain ⟨hi0mem, hi0u, hi0n⟩ := find?_ingredient_props hf
      by_cases hname : t.name = sp.name
      · have huniqF : IngredientNamesUnique u (get_or_create_ingredients
            { db with recipeIngredients := m2m_add db.recipeIngredients rid i0.id }
            u rest rid).ingredients := get_or_create_ingredients_uniq u rid rest _ huniq
        have hi0fold := @get_or_create_ingredients_ings_mono u rid rest
          { db with recipeIngredients := m2m_add db.recipeIngredients rid i0.id } i0 hi0mem
        have heq : t = i0 := huniqF t ht i0 hi0fold htu hi0u (by rw [hname, hi0n])
        subst heq
        exact get_or_create_ingredients_links_mono u rid rest _ _ (self_mem_m2m_add _ _ _)
      · have hn' : t.name ∈ rest.map IngredientSpec.name := by
          rcases List.mem_map.mp hn with ⟨sp', hsp', hspn⟩
          rcases List.mem_cons.mp hsp' with rfl | hsp'
          · exact absurd hspn.symm hname
          · exact List.mem_map.mpr ⟨sp', hsp', hspn⟩
        exact ih { db with recipeIngredients := m2m_add db.recipeIngredients rid i0.id }
          huniq t ht htu hn'
    | none =>
      rw [get_or_create_ingredients_cons_created hf] at ht ⊢
      have huniq1 : IngredientNamesUnique u
          (db.ingredients ++ [⟨db.nextIngredientId, u, sp.name⟩]) :=
        huniq.append_new_ingredient hf db.nextIngredientId
      by_cases hname : t.name = sp.name
      · have huniqF := get_or_create_ingredients_uniq u rid rest
          { db with ingredients := db.ingredients ++ [⟨db.nextIngredientId, u, sp.name⟩],
                    nextIngredientId := db.nextIngredientId + 1,
                    recipeIngredients := m2m_add db.recipeIngredients rid db.nextIngredientId } huniq1
        have htNfold := @get_or_create_ingredients_ings_mono u rid rest
          { db with ingredients := db.ingredients ++ [⟨db.nextIngredientId, u, sp.name⟩],
                    nextIngredientId := db.nextIngredientId + 1,
                    recipeIngredients := m2m_add db.recipeIngredients rid db.nextIngredientId }
          ⟨db.nextIngredientId, u, sp.name⟩ (by simp)
        have heq : t = ⟨db.nextIngredientId, u, sp.name⟩ :=
          huniqF t ht _ htNfold htu rfl (by rw [hname])
        subst heq
        exact get_or_create_ingredients_links_mono u rid rest _ _ (self_mem_m2m_add _ _ _)
      · have hn' : t.name ∈ rest.map IngredientSpec.name := by
          rcases List.mem_map.mp hn with ⟨sp', hsp', hspn⟩
          rcases List.mem_cons.mp hsp' with rfl | hsp'
          · exact absurd hspn.symm hname
          · exact List.mem_map.mpr ⟨sp', hsp', hspn⟩
        exact ih { db with ingredients := db.ingredients ++ [⟨db.nextIngredientId, u, sp.name⟩],
                           nextIngredientId := db.nextIngredientId + 1,
                           recipeIngredients := m2m_add db.recipeIngredients rid db.nextIngredientId }
          huniq1 t ht htu hn'

theorem get_or_create_ingredients_links_nodup (u rid : Nat) (specs : List IngredientSpec) :
    ∀ db : DB, db.recipeIngredients.Nodup → (get_or_create_ingredients db u specs rid).recipeIngredients.Nodup := by
  induction specs with
  | nil => exact fun db h => h
  | cons sp rest ih =>
    intro db h
    cases hf : db.ingredients.find? (fun t => t.user == u && t.name == sp.name) with
    | some i0 =>
      rw [get_or_create_ingredients_cons_found hf]
      exact ih _ (nodup_m2m_add _ _ h)
    | none =>
      rw [get_or_create_ingredients_cons_created hf]
      exact ih _ (nodup_m2m_add _ _ h)

theorem get_or_create_ingredients_fresh (u rid : Nat) (specs : List IngredientSpec) :
    ∀ db : DB, (∀ x ∈ db.ingredients, x.id < db.nextIngredientId) →
      (∀ x ∈ (get_or_create_ingredients db u specs rid).ingredients,
        x.id < (get_or_create_ingredients db u specs rid).nextIngredientId) ∧
      db.nextIngredientId ≤ (get_or_create_ingredients db u specs rid).nextIngredientId ∧
      ((db.ingredients.map Ingredient.id).Nodup →
        ((get_or_create_ingredients db u specs rid).ingredients.map Ingredient.id).Nodup) ∧
      (∀ x ∈ (get_or_create_ingredients db u specs rid).ingredients,
        x ∈ db.ingredients ∨ db.nextIngredientId ≤ x.id) := by
  induction specs with
  | nil => exact fun db h => ⟨h, le_refl _, fun hn => hn, fun x hx => Or.inl hx⟩
  | cons sp rest ih =>
    intro db h
    cases hf : db.ingredients.find? (fun t => t.user == u && t.name == sp.name) with
    | some i0 =>
      rw [get_or_create_ingredients_cons_found hf]
      exact ih _ h
    | none =>
      rw [get_or_create_ingredients_cons_created hf]
      have hb : ∀ x ∈ db.ingredients ++ [⟨db.nextIngredientId, u, sp.name⟩], x.id < db.nextIngredientId + 1 := by
        intro x hx
        rcases List.mem_append.mp hx with hx | hx
        · exact Nat.lt_succ_of_lt (h x hx)
        · have : x = ⟨db.nextIngredientId, u, sp.name⟩ := by simpa using hx
          rw [this]
          exact Nat.lt_succ_self _
      obtain ⟨ih1, ih2, ih3, ih4⟩ := ih
        { db with ingredients := db.ingredients ++ [⟨db.nextIngredientId, u, sp.name⟩],
                  nextIngredientId := db.nextIngredientId + 1,
                  recipeIngredients := m2m_add db.recipeIngredients rid db.nextIngredientId } hb
      refine ⟨ih1, le_trans (Nat.le_succ _) ih2, ?_, ?_⟩
      · intro hnd
        apply ih3
        simp only [List.map_append, List.map_cons, List.map_nil]
        rw [List.nodup_append]
        refine ⟨hnd, List.nodup_singleton _, ?_⟩
        intro a ha hb'
        have hb'' : a = db.nextIngredientId := by simpa using hb'
        rcases List.mem_map.mp ha with ⟨x, hx, rfl⟩
        exact absurd hb'' (Nat.ne_of_lt (h x hx))
      · intro x hx
        rcases ih4 x hx with hx' | hx'
        · rcases List.mem_append.mp hx' with hx'' | hx''
          · exact Or.inl hx''
          · have : x = ⟨db.nextIngredientId, u, sp.name⟩ := by simpa using hx''
            rw [this]
            exact Or.inr (le_refl _)
        · exact Or.inr (le_trans (Nat.le_succ _) hx')

theorem get_or_create_ingredients_all_owned (u rid : Nat) (specs : List IngredientSpec) :
    ∀ db : DB, (∀ sp ∈ specs, ∃ t ∈ db.ingredients, t.user = u ∧ t.name = sp.name) →
      (get_or_create_ingredients db u specs rid).ingredients = db.ingredients := by
  induction specs with
  | nil => exact fun db _ => rfl
  | cons sp rest ih =>
    intro db howned
    cases hf : db.ingredients.find? (fun t => t.user == u && t.name == sp.name) with
    | some i0 =>
      rw [get_or_create_ingredients_cons_found hf]
      exact ih _ fun sp' hsp' => howned sp' (List.mem_cons_of_mem _ hsp')
    | none =>
      exfalso
      obtain ⟨t, ht, htu, htn⟩ := howned sp (List.mem_cons_self _ _)
      exact List.find?_eq_none.mp hf t ht (by simp [htu, htn])

/-! ### Structural lemmas about the serializer update functions -/

theorem detail_update_phase_eq (db : DB) (u : Nat) (inst : Recipe) (q : UpdatePayload) :
    recipe_detail_serializer_update db u inst q =
      recipe_serializer_update (ingredientPhase db u inst.id q.ingredients) u inst
        { q with ingredients := none } := by
  cases hqi : q.ingredients with
  | none => simp [recipe_detail_serializer_update, ingredientPhase, hqi]
  | some specs => simp [recipe_detail_serializer_update, ingredientPhase, hqi]

theorem ingredientPhase_tags (db : DB) (u rid : Nat) (o : Option (List IngredientSpec)) :
    (ingredientPhase db u rid o).tags = db.tags := by
  cases o with
  | none => rfl
  | some specs => exact (get_or_create_ingredients_untouched u rid specs _).2.1

theorem ingredientPhase_recipeTags (db : DB) (u rid : Nat)
    (o : Option (List IngredientSpec)) :
    (ingredientPhase db u rid o).recipeTags = db.recipeTags := by
  cases o with
  | none => rfl
  | some specs => exact (get_or_create_ingredients_untouched u rid specs _).2.2.1

theorem ingredientPhase_recipes (db : DB) (u rid : Nat)
    (o : Option (List IngredientSpec)) :
    (ingredientPhase db u rid o).recipes = db.recipes := by
  cases o with
  | none => rfl
  | some specs => exact (get_or_create_ingredients_untouched u rid specs _).1

theorem ser_update_recipeTags_of_none {db1 : DB} {u : Nat} {inst : Recipe}
    {p' : UpdatePayload} (h : p'.tags = none) :
    (recipe_serializer_update db1 u inst p').recipeTags = db1.recipeTags := by
  simp [recipe_serializer_update, h]

theorem ser_update_tags_of_none {db1 : DB} {u : Nat} {inst : Recipe}
    {p' : UpdatePayload} (h : p'.tags = none) :
    (recipe_serializer_update db1 u inst p').tags = db1.tags := by
  simp [recipe_serializer_update, h]

theorem ser_update_recipeTags_of_some {db1 : DB} {u : Nat} {inst : Recipe}
    {p' : UpdatePayload} {ts : List TagSpec} (h : p'.tags = some ts) :
    (recipe_serializer_update db1 u inst p').recipeTags =
      (get_or_create_tags { db1 with recipeTags := m2m_clear db1.recipeTags inst.id }
        u ts inst.id).recipeTags := by
  simp [recipe_serializer_update, h]

theorem ser_update_tags_of_some {db1 : DB} {u : Nat} {inst : Recipe}
    {p' : UpdatePayload} {ts : List TagSpec} (h : p'.tags = some ts) :
    (recipe_serializer_update db1 u inst p').tags =
      (get_or_create_tags { db1 with recipeTags := m2m_clear db1.recipeTags inst.id }
        u ts inst.id).tags := by
  simp [recipe_serializer_update, h]

theorem ser_update_recipeIngredients (db1 : DB) (u : Nat) (inst : Recipe)
    (p' : UpdatePayload) :
    (recipe_serializer_update db1 u inst p').recipeIngredients = db1.recipeIngredients := by
  cases h : p'.tags with
  | none => simp [recipe_serializer_update, h]
  | some specs =>
    simp only [recipe_serializer_update, h]
    exact (get_or_create_tags_untouched u inst.id specs _).2.2.1

theorem ser_update_ingredients (db1 : DB) (u : Nat) (inst : Recipe) (p' : UpdatePayload) :
    (recipe_serializer_update db1 u inst p').ingredients = db1.ingredients := by
  cases h : p'.tags with
  | none => simp [recipe_serializer_update, h]
  | some specs =>
    simp only [recipe_serializer_update, h]
    exact (get_or_create_tags_untouched u inst.id specs _).2.1

theorem ser_update_recipes (db1 : DB) (u : Nat) (inst : Recipe) (p' : UpdatePayload) :
    (recipe_serializer_update db1 u inst p').recipes =
      saveRecipe db1.recipes (applyScalars inst p') := by
  cases h : p'.tags with
  | none => simp [recipe_serializer_update, h]
  | some specs =>
    simp only [recipe_serializer_update, h]
    rw [(get_or_create_tags_untouched u inst.id specs _).1]

/-! ### Claim C2 -/

/-- C2: on a recipe update, a `tags` key present in the payload
(including as an empty list) replaces the recipe's entire tag link
set — cleared, then get-or-create/attached from the supplied list, so
the final links of the recipe are exactly those to the requesting
user's rows bearing the supplied names; an absent key leaves the
existing tag links unchanged; the same rule applies independently to
`ingredients`; in particular `tags: []` clears all tag links while
leaving ingredient links untouched. -/
theorem C2_update_link_replacement (db : DB) (u : Nat) (inst : Recipe) (p : UpdatePayload)
    (hUT : TagNamesUnique u db.tags)
    (hUI : IngredientNamesUnique u db.ingredients) :
    (p.tags = none →
      (recipe_detail_serializer_update db u inst p).recipeTags = db.recipeTags) ∧
    (p.ingredients = none →
      (recipe_detail_serializer_update db u inst p).recipeIngredients =
        db.recipeIngredients) ∧
    (p.tags = some [] →
      tagLinksOf (recipe_detail_serializer_update db u inst p) inst.id = []) ∧
    (p.ingredients = some [] →
      ingredientLinksOf (recipe_detail_serializer_update db u inst p) inst.id = []) ∧
    (∀ ts, p.tags = some ts → ∀ tid,
      ((inst.id, tid) ∈ (recipe_detail_serializer_update db u inst p).recipeTags ↔
        ∃ t ∈ (recipe_detail_serializer_update db u inst p).tags,
          t.id = tid ∧ t.user = u ∧ t.name ∈ ts.map TagSpec.name)) ∧
    (∀ il, p.ingredients = some il → ∀ iid,
      ((inst.id, iid) ∈ (recipe_detail_serializer_update db u inst p).recipeIngredients ↔
        ∃ i ∈ (recipe_detail_serializer_update db u inst p).ingredients,
          i.id = iid ∧ i.user = u ∧ i.name ∈ il.map IngredientSpec.name)) := by
  have hq : ({ p with ingredients := none } : UpdatePayload).tags = p.tags := rfl
  refine ⟨?_, ?_, ?_, ?_, ?_, ?_⟩
  · intro hpt
    rw [detail_update_phase_eq, ser_update_recipeTags_of_none (hq.trans hpt),
      ingredientPhase_recipeTags]
  · intro hpi
    rw [detail_update_phase_eq, ser_update_recipeIngredients, hpi]
    rfl
  · intro hpt
    unfold tagLinksOf
    rw [detail_update_phase_eq, ser_update_recipeTags_of_some (hq.trans hpt),
      get_or_create_tags_nil]
    exact tagLinks_of_clear _ _
  · intro hpi
    unfold ingredientLinksOf
    rw [detail_update_phase_eq, ser_update_recipeIngredients, hpi]
    exact tagLinks_of_clear _ _
  · intro ts hpt tid
    rw [detail_update_phase_eq, ser_update_recipeTags_of_some (hq.trans hpt),
      ser_update_tags_of_some (hq.trans hpt)]
    constructor
    · intro hmem
      rcases get_or_create_tags_links_char u inst.id ts _ _ hmem with
        hold | ⟨_, t, ht, hid, hu, hn⟩
      · exact absurd hold (not_mem_m2m_clear _ _ _)
      · exact ⟨t, ht, hid, hu, hn⟩
    · rintro ⟨t, ht, htid, htu, htn⟩
      have huniq : TagNamesUnique u
          ({ ingredientPhase db u inst.id p.ingredients with
            recipeTags :=
              m2m_clear (ingredientPhase db u inst.id p.ingredients).recipeTags
                inst.id } : DB).tags := by
        have hdbc : ({ ingredientPhase db u inst.id p.ingredients with
            recipeTags :=
              m2m_clear (ingredientPhase db u inst.id p.ingredients).recipeTags
                inst.id } : DB).tags = db.tags :=
          ingredientPhase_tags db u inst.id p.ingredients
        rw [hdbc]
        exact hUT
      have hres := get_or_create_tags_links_complete u inst.id ts _ huniq t ht htu htn
      rw [htid] at hres
      exact hres
  · intro il hpi iid
    rw [detail_update_phase_eq, ser_update_recipeIngredients, ser_update_ingredients, hpi]
    constructor
    · intro hmem
      rcases get_or_create_ingredients_links_char u inst.id il _ _ hmem with
        hold | ⟨_, i, hi, hid, hu, hn⟩
      · exact absurd hold (not_mem_m2m_clear _ _ _)
      · exact ⟨i, hi, hid, hu, hn⟩
    · rintro ⟨i, hi, hiid, hiu, hin⟩
      have huniq : IngredientNamesUnique u
          ({ db with
            recipeIngredients := m2m_clear db.recipeIngredients inst.id } : DB).ingredients :=
        hUI
      have hres := get_or_create_ingredients_links_complete u inst.id il _ huniq i hi hiu hin
      rw [hiid] at hres
      exact hres

/-- Witness for C2: updating recipe 1 of `sampleDB` (as user 1) with
`tags: []` and an absent `ingredients` key clears its tag links. -/
theorem C2_update_link_replacement_witness :
    tagLinksOf
      (recipe_detail_serializer_update sampleDB 1 (Recipe.mk 1 1 "Pasta" 10 5 "" "")
        { tags := some [] }) 1 = [] :=
  (C2_update_link_replacement sampleDB 1 (Recipe.mk 1 1 "Pasta" 10 5 "" "")
    { tags := some [] } (by decide) (by decide)).2.2.1 rfl

/-! ### Claim C3 -/

/-- C3: `_get_or_create_tags` (and `_get_or_create_ingredients`)
resolves a name the requesting user already owns to the existing row —
when every supplied name is owned, the user's tag rows and hence the
user's total tag count are unchanged; a genuinely new name creates
exactly one new row; a name appearing twice resolves to the same
single row both times (processing the duplicate entry changes
nothing); and the link set stays duplicate-free. -/
theorem C3_get_or_create_resolution (db : DB) (u rid : Nat) (n m : String)
    (specsT : List TagSpec) (specsI : List IngredientSpec) :
    ((∀ sp ∈ specsT, ∃ t ∈ db.tags, t.user = u ∧ t.name = sp.name) →
      (get_or_create_tags db u specsT rid).tags = db.tags ∧
      ((get_or_create_tags db u specsT rid).tags.filter fun t => t.user == u).length =
        (db.tags.filter fun t => t.user == u).length) ∧
    ((¬ ∃ t ∈ db.tags, t.user = u ∧ t.name = n) →
      (get_or_create_tags db u [⟨n⟩] rid).tags = db.tags ++ [⟨db.nextTagId, u, n⟩]) ∧
    (get_or_create_tags db u [⟨n⟩, ⟨n⟩] rid = get_or_create_tags db u [⟨n⟩] rid) ∧
    (db.recipeTags.Nodup → (get_or_create_tags db u specsT rid).recipeTags.Nodup) ∧
    ((∀ sp ∈ specsI, ∃ i ∈ db.ingredients, i.user = u ∧ i.name = sp.name) →
      (get_or_create_ingredients db u specsI rid).ingredients = db.ingredients ∧
      ((get_or_create_ingredients db u specsI rid).ingredients.filter
          fun i => i.user == u).length =
        (db.ingredients.filter fun i => i.user == u).length) ∧
    ((¬ ∃ i ∈ db.ingredients, i.user = u ∧ i.name = m) →
      (get_or_create_ingredients db u [⟨m⟩] rid).ingredients =
        db.ingredients ++ [⟨db.nextIngredientId, u, m⟩]) ∧
    (get_or_create_ingredients db u [⟨m⟩, ⟨m⟩] rid =
      get_or_create_ingredients db u [⟨m⟩] rid) ∧
    (db.recipeIngredients.Nodup →
      (get_or_create_ingredients db u specsI rid).recipeIngredients.Nodup) := by
  refine ⟨?_, ?_, ?_, fun h => get_or_create_tags_links_nodup u rid specsT db h,
          ?_, ?_, ?_, fun h => get_or_create_ingredients_links_nodup u rid specsI db h⟩
  · intro howned
    have heq := get_or_create_tags_all_owned u rid specsT db howned
    exact ⟨heq, by rw [heq]⟩
  · intro hnew
    have hf : db.tags.find? (fun t => t.user == u && t.name == n) = none := by
      rw [List.find?_eq_none]
      intro t ht hc
      simp only [Bool.and_eq_true, beq_iff_eq] at hc
      exact hnew ⟨t, ht, hc.1, hc.2⟩
    rw [get_or_create_tags_cons_created hf]
    rfl
  · cases hf : db.tags.find? (fun t => t.user == u && t.name == n) with
    | some t0 =>
      rw [get_or_create_tags_cons_found hf, get_or_create_tags_cons_found hf]
      have hf2 : ({ db with recipeTags := m2m_add db.recipeTags rid t0.id } : DB).tags.find?
          (fun t => t.user == u && t.name == n) = some t0 := hf
      rw [get_or_create_tags_cons_found hf2]
      rw [get_or_create_tags_nil, get_or_create_tags_nil]
      simp [m2m_add_idem]
    | none =>
      rw [get_or_create_tags_cons_created hf, get_or_create_tags_cons_created hf]
      have hf2 : ({ db with
            tags := db.tags ++ [⟨db.nextTagId, u, n⟩],
            nextTagId := db.nextTagId + 1,
            recipeTags := m2m_add db.recipeTags rid db.nextTagId } : DB).tags.find?
          (fun t => t.user == u && t.name == n) = some ⟨db.nextTagId, u, n⟩ := by
        show (db.tags ++ [(⟨db.nextTagId, u, n⟩ : Tag)]).find?
            (fun t => t.user == u && t.name == n) = some ⟨db.nextTagId, u, n⟩
        rw [List.find?_append, hf]
        simp
      rw [get_or_create_tags_cons_found hf2]
      rw [get_or_create_tags_nil, get_or_create_tags_nil]
      simp [m2m_add_idem]
  · intro howned
    have heq := get_or_create_ingredients_all_owned u rid specsI db howned
    exact ⟨heq, by rw [heq]⟩
  · intro hnew
    have hf : db.ingredients.find? (fun i => i.user == u && i.name == m) = none := by
      rw [List.find?_eq_none]
      intro i hi hc
      simp only [Bool.and_eq_true, beq_iff_eq] at hc
      exact hnew ⟨i, hi, hc.1, hc.2⟩
    rw [get_or_create_ingredients_cons_created hf]
    rfl
  · cases hf : db.ingredients.find? (fun i => i.user == u && i.name == m) with
    | some i0 =>
      rw [get_or_create_ingredients_cons_found hf, get_or_create_ingredients_cons_found hf]
      have hf2 : ({ db with
          recipeIngredients := m2m_add db.recipeIngredients rid i0.id } : DB).ingredients.find?
          (fun i => i.user == u && i.name == m) = some i0 := hf
      rw [get_or_create_ingredients_cons_found hf2]
      rw [get_or_create_ingredients_nil, get_or_create_ingredients_nil]
      simp [m2m_add_idem]
    | none =>
      rw [get_or_create_ingredients_cons_created hf, get_or_create_ingredients_cons_created hf]
      have hf2 : ({ db with
            ingredients := db.ingredients ++ [⟨db.nextIngredientId, u, m⟩],
            nextIngredientId := db.nextIngredientId + 1,
            recipeIngredients :=
              m2m_add db.recipeIngredients rid db.nextIngredientId } : DB).ingredients.find?
          (fun i => i.user == u && i.name == m) = some ⟨db.nextIngredientId, u, m⟩ := by
        show (db.ingredients ++ [(⟨db.nextIngredientId, u, m⟩ : Ingredient)]).find?
            (fun i => i.user == u && i.name == m) = some ⟨db.nextIngredientId, u, m⟩
        rw [List.find?_append, hf]
        simp
      rw [get_or_create_ingredients_cons_found hf2]
      rw [get_or_create_ingredients_nil, get_or_create_ingredients_nil]
      simp [m2m_add_idem]

/-- Witness for C3: attaching the already-owned name `Vegan` to recipe
1 of `sampleDB` as user 1 leaves the tag table unchanged. -/
theorem C3_get_or_create_resolution_witness :
    (get_or_create_tags sampleDB 1 [⟨"Vegan"⟩] 1).tags = sampleDB.tags ∧
    ((get_or_create_tags sampleDB 1 [⟨"Vegan"⟩] 1).tags.filter
        fun t => t.user == 1).length =
      (sampleDB.tags.filter fun t => t.user == 1).length :=
  (C3_get_or_create_resolution sampleDB 1 1 "x" "y" [⟨"Vegan"⟩] []).1 (by decide)

/-! ### Helper lemmas for the ownership invariants -/

theorem ingredientPhase_nextTagId (db : DB) (u rid : Nat)
    (o : Option (List IngredientSpec)) :
    (ingredientPhase db u rid o).nextTagId = db.nextTagId := by
  cases o with
  | none => rfl
  | some specs => exact (get_or_create_ingredients_untouched u rid specs _).2.2.2.2

theorem saveRecipe_pairs {rs : List Recipe} {inst r' : Recipe}
    (hid : r'.id = inst.id) (huser : r'.user = inst.user)
    (hnd : (rs.map Recipe.id).Nodup) (hinst : inst ∈ rs) :
    (saveRecipe rs r').map (fun r => (r.id, r.user)) =
      rs.map (fun r => (r.id, r.user)) := by
  unfold saveRecipe
  rw [List.map_map]
  apply List.map_congr_left
  intro x hx
  by_cases hxe : (x.id == r'.id) = true
  · have hxid : x.id = inst.id := by
      rw [← hid]
      exact beq_iff_eq.mp hxe
    have hx_eq : x = inst := List.inj_on_of_nodup_map hnd hx hinst hxid
    show (fun r => (r.id, r.user)) (if x.id == r'.id then r' else x) = (x.id, x.user)
    rw [if_pos hxe]
    show (r'.id, r'.user) = (x.id, x.user)
    rw [hid, huser, hx_eq]
  · simp [Function.comp, hxe]

theorem pairs_transfer {rs rs' : List Recipe}
    (h : rs'.map (fun r => (r.id, r.user)) = rs.map (fun r => (r.id, r.user))) :
    ∀ r' ∈ rs', ∃ r ∈ rs, r.id = r'.id ∧ r.user = r'.user := by
  intro r' hr'
  have hmem : (r'.id, r'.user) ∈ rs.map (fun r => (r.id, r.user)) := by
    rw [← h]
    exact List.mem_map_of_mem _ hr'
  rcases List.mem_map.mp hmem with ⟨r, hr, heq⟩
  exact ⟨r, hr, congrArg Prod.fst heq, congrArg Prod.snd heq⟩

theorem tag_resolve {db0 : DB} {u rid : Nat} {specs : List TagSpec}
    (hnd : (db0.tags.map Tag.id).Nodup) (hfr : ∀ x ∈ db0.tags, x.id < db0.nextTagId)
    {t' t0 : Tag} (ht' : t' ∈ (get_or_create_tags db0 u specs rid).tags)
    (ht0 : t0 ∈ db0.tags) (hid : t'.id = t0.id) : t' = t0 := by
  obtain ⟨_, _, _, h4⟩ := get_or_create_tags_fresh u rid specs db0 hfr
  rcases h4 t' ht' with hold | hfresh
  · exact List.inj_on_of_nodup_map hnd hold ht0 hid
  · exfalso
    have : db0.nextTagId ≤ t0.id := by
      rw [← hid]
      exact hfresh
    exact absurd this (Nat.not_le_of_lt (hfr t0 ht0))

theorem tag_fold_id_inj {db0 : DB} {u rid : Nat} {specs : List TagSpec}
    (hnd : (db0.tags.map Tag.id).Nodup) (hfr : ∀ x ∈ db0.tags, x.id < db0.nextTagId)
    {a b : Tag} (ha : a ∈ (get_or_create_tags db0 u specs rid).tags)
    (hb : b ∈ (get_or_create_tags db0 u specs rid).tags) (hid : a.id = b.id) : a = b := by
  obtain ⟨_, _, h3, _⟩ := get_or_create_tags_fresh u rid specs db0 hfr
  exact List.inj_on_of_nodup_map (h3 hnd) ha hb hid

theorem ingredient_resolve {db0 : DB} {u rid : Nat} {specs : List IngredientSpec}
    (hnd : (db0.ingredients.map Ingredient.id).Nodup)
    (hfr : ∀ x ∈ db0.ingredients, x.id < db0.nextIngredientId)
    {i' i0 : Ingredient}
    (hi' : i' ∈ (get_or_create_ingredients db0 u specs rid).ingredients)
    (hi0 : i0 ∈ db0.ingredients) (hid : i'.id = i0.id) : i' = i0 := by
  obtain ⟨_, _, _, h4⟩ := get_or_create_ingredients_fresh u rid specs db0 hfr
  rcases h4 i' hi' with hold | hfresh
  · exact List.inj_on_of_nodup_map hnd hold hi0 hid
  · exfalso
    have : db0.nextIngredientId ≤ i0.id := by
      rw [← hid]
      exact hfresh
    exact absurd this (Nat.not_le_of_lt (hfr i0 hi0))

theorem ingredient_fold_id_inj {db0 : DB} {u rid : Nat} {specs : List IngredientSpec}
    (hnd : (db0.ingredients.map Ingredient.id).Nodup)
    (hfr : ∀ x ∈ db0.ingredients, x.id < db0.nextIngredientId)
    {a b : Ingredient}
    (ha : a ∈ (get_or_create_ingredients db0 u specs rid).ingredients)
    (hb : b ∈ (get_or_create_ingredients db0 u specs rid).ingredients)
    (hid : a.id = b.id) : a = b := by
  obtain ⟨_, _, h3, _⟩ := get_or_create_ingredients_fresh u rid specs db0 hfr
  exact List.inj_on_of_nodup_map (h3 hnd) ha hb hid

/-- Updating via `RecipeDetailSerializer.update` preserves the link-scope
invariant: reconciliation clears only the edited recipe's links and
attaches rows looked up or created in the requesting (owning) user's
scope. -/
theorem update_preserves_scope (db : DB) (u : Nat) (inst : Recipe) (p : UpdatePayload)
    (hwf : WF db) (hscope : LinkScopeOK db)
    (hinst : inst ∈ db.recipes) (howner : inst.user = u) :
    LinkScopeOK (recipe_detail_serializer_update db u inst p) := by
  obtain ⟨hndR, hndT, hndI, hfR, hfT, hfI, hrefT, hrefI⟩ := hwf
  obtain ⟨hscT, hscI⟩ := hscope
  have hq : ({ p with ingredients := none } : UpdatePayload).tags = p.tags := rfl
  rw [detail_update_phase_eq]
  have hRecipes : (recipe_serializer_update (ingredientPhase db u inst.id p.ingredients)
      u inst { p with ingredients := none }).recipes =
      saveRecipe db.recipes (applyScalars inst { p with ingredients := none }) := by
    rw [ser_update_recipes, ingredientPhase_recipes]
  have hPairs : (recipe_serializer_update (ingredientPhase db u inst.id p.ingredients)
      u inst { p with ingredients := none }).recipes.map (fun r => (r.id, r.user)) =
      db.recipes.map (fun r => (r.id, r.user)) := by
    rw [hRecipes]
    exact @saveRecipe_pairs db.recipes inst
      (applyScalars inst { p with ingredients := none }) rfl rfl hndR hinst
  have hTrans := pairs_transfer hPairs
  have hAnyUser : ∀ r' ∈ (recipe_serializer_update
      (ingredientPhase db u inst.id p.ingredients) u inst
      { p with ingredients := none }).recipes,
      ∀ r0 ∈ db.recipes, r'.id = r0.id → r'.user = r0.user := by
    intro r' hr' r0 hr0 hid
    obtain ⟨r, hr, hrid, hruser⟩ := hTrans r' hr'
    have hrr : r = r0 := List.inj_on_of_nodup_map hndR hr hr0 (hrid.trans hid)
    rw [← hruser, hrr]
  have hOwnerAt : ∀ r' ∈ (recipe_serializer_update
      (ingredientPhase db u inst.id p.ingredients) u inst
      { p with ingredients := none }).recipes, r'.id = inst.id → r'.user = u := by
    intro r' hr' hid
    rw [← howner]
    exact hAnyUser r' hr' inst hinst hid
  refine ⟨?_, ?_⟩
  · intro pl hpl r' hr' hrid t' ht' htid
    cases hpt : p.tags with
    | none =>
      rw [ser_update_recipeTags_of_none (hq.trans hpt), ingredientPhase_recipeTags] at hpl
      rw [ser_update_tags_of_none (hq.trans hpt), ingredientPhase_tags] at ht'
      obtain ⟨r0, hr0, hr0id, hr0user⟩ := hTrans r' hr'
      exact (hscT pl hpl r0 hr0 (hr0id.trans hrid) t' ht' htid).trans hr0user
    | some ts =>
      rw [ser_update_recipeTags_of_some (hq.trans hpt)] at hpl
      rw [ser_update_tags_of_some (hq.trans hpt)] at ht'
      have hc_tags : ({ ingredientPhase db u inst.id p.ingredients with
          recipeTags := m2m_clear (ingredientPhase db u inst.id p.ingredients).recipeTags
            inst.id } : DB).tags = db.tags :=
        ingredientPhase_tags db u inst.id p.ingredients
      have hndT' : (({ ingredientPhase db u inst.id p.ingredients with
          recipeTags := m2m_clear (ingredientPhase db u inst.id p.ingredients).recipeTags
            inst.id } : DB).tags.map Tag.id).Nodup := by
        rw [hc_tags]
        exact hndT
      have hfT' : ∀ x ∈ ({ ingredientPhase db u inst.id p.ingredients with
          recipeTags := m2m_clear (ingredientPhase db u inst.id p.ingredients).recipeTags
            inst.id } : DB).tags,
          x.id < ({ ingredientPhase db u inst.id p.ingredients with
          recipeTags := m2m_clear (ingredientPhase db u inst.id p.ingredients).recipeTags
            inst.id } : DB).nextTagId := by
        intro x hx
        rw [hc_tags] at hx
        have hnx : ({ ingredientPhase db u inst.id p.ingredients with
            recipeTags := m2m_clear (ingredientPhase db u inst.id p.ingredients).recipeTags
              inst.id } : DB).nextTagId = db.nextTagId :=
          ingredientPhase_nextTagId db u inst.id p.ingredients
        rw [hnx]
        exact hfT x hx
      rcases get_or_create_tags_links_char u inst.id ts _ pl hpl with
        hold | ⟨hpl1, t'', ht'', hid'', hu'', _⟩
      · have hpOld : pl ∈ db.recipeTags := by
          have h1 : pl ∈ (ingredientPhase db u inst.id p.ingredients).recipeTags :=
            mem_of_mem_m2m_clear hold
          rw [ingredientPhase_recipeTags] at h1
          exact h1
        obtain ⟨⟨r0, hr0, hr0id⟩, ⟨t0, ht0, ht0id⟩⟩ := hrefT pl hpOld
        have ht0' : t0 ∈ ({ ingredientPhase db u inst.id p.ingredients with
            recipeTags := m2m_clear (ingredientPhase db u inst.id p.ingredients).recipeTags
              inst.id } : DB).tags := by
          rw [hc_tags]
          exact ht0
        have ht'eq : t' = t0 := tag_resolve hndT' hfT' ht' ht0' (htid.trans ht0id.symm)
        have hr'user : r'.user = r0.user := hAnyUser r' hr' r0 hr0 (hrid.trans hr0id.symm)
        rw [ht'eq]
        exact (hscT pl hpOld r0 hr0 hr0id t0 ht0 ht0id).trans hr'user.symm
      · have hr'u : r'.user = u := hOwnerAt r' hr' (hrid.trans hpl1)
        have ht'eq : t' = t'' := tag_fold_id_inj hndT' hfT' ht' ht'' (htid.trans hid''.symm)
        rw [ht'eq, hu'', hr'u]
  · intro pl hpl r' hr' hrid i' hi' hiid
    rw [ser_update_recipeIngredients] at hpl
    rw [ser_update_ingredients] at hi'
    cases hpi : p.ingredients with
    | none =>
      rw [hpi] at hpl hi'
      obtain ⟨r0, hr0, hr0id, hr0user⟩ := hTrans r' hr'
      exact (hscI pl hpl r0 hr0 (hr0id.trans hrid) i' hi' hiid).trans hr0user
    | some il =>
      rw [hpi] at hpl hi'
      rcases get_or_create_ingredients_links_char u inst.id il
          { db with recipeIngredients := m2m_clear db.recipeIngredients inst.id } pl hpl with
        hold | ⟨hpl1, i'', hi'', hid'', hu'', _⟩
      · have hpOld : pl ∈ db.recipeIngredients := mem_of_mem_m2m_clear hold
        obtain ⟨⟨r0, hr0, hr0id⟩, ⟨i0, hi0, hi0id⟩⟩ := hrefI pl hpOld
        have hi'eq : i' = i0 :=
          @ingredient_resolve
            { db with recipeIngredients := m2m_clear db.recipeIngredients inst.id }
            u inst.id il hndI hfI i' i0 hi' hi0 (hiid.trans hi0id.symm)
        have hr'user : r'.user = r0.user := hAnyUser r' hr' r0 hr0 (hrid.trans hr0id.symm)
        rw [hi'eq]
        exact (hscI pl hpOld r0 hr0 hr0id i0 hi0 hi0id).trans hr'user.symm
      · have hr'u : r'.user = u := hOwnerAt r' hr' (hrid.trans hpl1)
        have hi'eq : i' = i'' :=
          @ingredient_fold_id_inj
            { db with recipeIngredients := m2m_clear db.recipeIngredients inst.id }
            u inst.id il hndI hfI i' i'' hi' hi'' (hiid.trans hid''.symm)
        rw [hi'eq, hu'', hr'u]

/-- Creating via `RecipeDetailSerializer.create` (with the owner injected by
`perform_create`) preserves the link-scope invariant: the created
recipe is owned by the requesting user and all attached rows are
looked up or created in that same user's scope. -/
theorem create_preserves_scope (db : DB) (u : Nat) (cp : CreatePayload)
    (hwf : WF db) (hscope : LinkScopeOK db) :
    LinkScopeOK (recipe_detail_serializer_create db u cp).1 := by
  obtain ⟨hndR, hndT, hndI, hfR, hfT, hfI, hrefT, hrefI⟩ := hwf
  obtain ⟨hscT, hscI⟩ := hscope
  have hrw : (recipe_detail_serializer_create db u cp).1 =
      get_or_create_ingredients
        (get_or_create_tags
          { db with
              recipes := db.recipes ++ [newRecipeOf db u cp],
              nextRecipeId := db.nextRecipeId + 1 }
          u (cp.tags.getD []) db.nextRecipeId)
        u (cp.ingredients.getD []) db.nextRecipeId := rfl
  rw [hrw]
  set dbA : DB :=
    { db with
        recipes := db.recipes ++ [newRecipeOf db u cp],
        nextRecipeId := db.nextRecipeId + 1 } with hdbA
  set dbT : DB := get_or_create_tags dbA u (cp.tags.getD []) db.nextRecipeId with hdbT
  have hTun := get_or_create_tags_untouched u db.nextRecipeId (cp.tags.getD []) dbA
  have hIun := get_or_create_ingredients_untouched u db.nextRecipeId
    (cp.ingredients.getD []) dbT
  have hdbT_rec : dbT.recipes = db.recipes ++ [newRecipeOf db u cp] := by
    rw [hdbT]
    exact hTun.1
  have hdbT_ing : dbT.ingredients = db.ingredients := by
    rw [hdbT]
    exact hTun.2.1
  have hdbT_ri : dbT.recipeIngredients = db.recipeIngredients := by
    rw [hdbT]
    exact hTun.2.2.1
  have hdbT_nii : dbT.nextIngredientId = db.nextIngredientId := by
    rw [hdbT]
    exact hTun.2.2.2.2
  have hndTA : (dbA.tags.map Tag.id).Nodup := by
    rw [hdbA]
    exact hndT
  have hfTA : ∀ x ∈ dbA.tags, x.id < dbA.nextTagId := by
    rw [hdbA]
    exact hfT
  have hndID : (dbT.ingredients.map Ingredient.id).Nodup := by
    rw [hdbT_ing]
    exact hndI
  have hfID : ∀ x ∈ dbT.ingredients, x.id < dbT.nextIngredientId := by
    intro x hx
    rw [hdbT_ing] at hx
    rw [hdbT_nii]
    exact hfI x hx
  have hfinRec : (get_or_create_ingredients dbT u (cp.ingredients.getD [])
      db.nextRecipeId).recipes = db.recipes ++ [newRecipeOf db u cp] :=
    hIun.1.trans hdbT_rec
  have hRcases : ∀ r' ∈ (get_or_create_ingredients dbT u (cp.ingredients.getD [])
      db.nextRecipeId).recipes, r' ∈ db.recipes ∨ r' = newRecipeOf db u cp := by
    intro r' hr'
    rw [hfinRec] at hr'
    rcases List.mem_append.mp hr' with h | h
    · exact Or.inl h
    · exact Or.inr (by simpa using h)
  refine ⟨?_, ?_⟩
  · intro pl hpl r' hr' hrid t' ht' htid
    rw [hIun.2.2.1] at hpl
    rw [hIun.2.1] at ht'
    rw [hdbT] at hpl ht'
    rcases get_or_create_tags_links_char u db.nextRecipeId (cp.tags.getD []) dbA pl hpl
      with hold | ⟨hpl1, t'', ht'', hid'', hu'', _⟩
    · have hpOld : pl ∈ db.recipeTags := by
        rw [hdbA] at hold
        exact hold
      obtain ⟨⟨r0, hr0, hr0id⟩, ⟨t0, ht0, ht0id⟩⟩ := hrefT pl hpOld
      have ht0A : t0 ∈ dbA.tags := by
        rw [hdbA]
        exact ht0
      have ht'eq : t' = t0 :=
        @tag_resolve dbA u db.nextRecipeId (cp.tags.getD []) hndTA hfTA t' t0
          ht' ht0A (htid.trans ht0id.symm)
      rcases hRcases r' hr' with hrdb | hrnew
      · have hr'eq : r' = r0 :=
          List.inj_on_of_nodup_map hndR hrdb hr0 (hrid.trans hr0id.symm)
        rw [ht'eq, hr'eq]
        exact hscT pl hpOld r0 hr0 hr0id t0 ht0 ht0id
      · exfalso
        have h2 : r'.id = db.nextRecipeId := by
          rw [hrnew]
          rfl
        have h3 := hfR r0 hr0
        have h4 : r'.id = r0.id := hrid.trans hr0id.symm
        omega
    · have hfTnodA : (dbA.tags.map Tag.id).Nodup := hndTA
      rcases hRcases r' hr' with hrdb | hrnew
      · exfalso
        have h2 := hfR r' hrdb
        have h3 : r'.id = db.nextRecipeId := hrid.trans hpl1
        omega
      · have hr'u : r'.user = u := by
          rw [hrnew]
          rfl
        have ht'eq : t' = t'' :=
          @tag_fold_id_inj dbA u db.nextRecipeId (cp.tags.getD []) hndTA hfTA t' t''
            ht' ht'' (htid.trans hid''.symm)
        rw [ht'eq, hu'', hr'u]
  · intro pl hpl r' hr' hrid i' hi' hiid
    rcases get_or_create_ingredients_links_char u db.nextRecipeId
      (cp.ingredients.getD []) dbT pl hpl with hold | ⟨hpl1, i'', hi'', hid'', hu'', _⟩
    · have hpOld : pl ∈ db.recipeIngredients := by
        rw [hdbT_ri] at hold
        exact hold
      obtain ⟨⟨r0, hr0, hr0id⟩, ⟨i0, hi0, hi0id⟩⟩ := hrefI pl hpOld
      have hi0T : i0 ∈ dbT.ingredients := by
        rw [hdbT_ing]
        exact hi0
      have hi'eq : i' = i0 :=
        @ingredient_resolve dbT u db.nextRecipeId (cp.ingredients.getD []) hndID hfID
          i' i0 hi' hi0T (hiid.trans hi0id.symm)
      rcases hRcases r' hr' with hrdb | hrnew
      · have hr'eq : r' = r0 :=
          List.inj_on_of_nodup_map hndR hrdb hr0 (hrid.trans hr0id.symm)
        rw [hi'eq, hr'eq]
        exact hscI pl hpOld r0 hr0 hr0id i0 hi0 hi0id
      · exfalso
        have h2 : r'.id = db.nextRecipeId := by
          rw [hrnew]
          rfl
        have h3 := hfR r0 hr0
        have h4 : r'.id = r0.id := hrid.trans hr0id.symm
        omega
    · rcases hRcases r' hr' with hrdb | hrnew
      · exfalso
        have h2 := hfR r' hrdb
        have h3 : r'.id = db.nextRecipeId := hrid.trans hpl1
        omega
      · have hr'u : r'.user = u := by
          rw [hrnew]
          rfl
        have hi'eq : i' = i'' :=
          @ingredient_fold_id_inj dbT u db.nextRecipeId (cp.ingredients.getD []) hndID hfID
            i' i'' hi' hi'' (hiid.trans hid''.symm)
        rw [hi'eq, hu'', hr'u]

theorem detail_update_tags_grow (db : DB) (u : Nat) (inst : Recipe) (p : UpdatePayload) :
    ∃ nt, (recipe_detail_serializer_update db u inst p).tags = db.tags ++ nt ∧
      ∀ t ∈ nt, t.user = u := by
  rw [detail_update_phase_eq]
  cases hpt : p.tags with
  | none =>
    refine ⟨[], ?_, by simp⟩
    rw [ser_update_tags_of_none rfl, ingredientPhase_tags]
    simp
  | some ts =>
    rw [ser_update_tags_of_some rfl]
    obtain ⟨nt, h1, h2⟩ := get_or_create_tags_grow u inst.id ts
      { ingredientPhase db u inst.id p.ingredients with
        recipeTags := m2m_clear (ingredientPhase db u inst.id p.ingredients).recipeTags
          inst.id }
    refine ⟨nt, ?_, fun t ht => (h2 t ht).1⟩
    rw [h1]
    have hc : ({ ingredientPhase db u inst.id p.ingredients with
        recipeTags := m2m_clear (ingredientPhase db u inst.id p.ingredients).recipeTags
          inst.id } : DB).tags = db.tags :=
      ingredientPhase_tags db u inst.id p.ingredients
    rw [hc]

theorem detail_update_ingredients_grow (db : DB) (u : Nat) (inst : Recipe)
    (p : UpdatePayload) :
    ∃ ni, (recipe_detail_serializer_update db u inst p).ingredients =
      db.ingredients ++ ni ∧ ∀ i ∈ ni, i.user = u := by
  rw [detail_update_phase_eq, ser_update_ingredients]
  cases hpi : p.ingredients with
  | none =>
    exact ⟨[], by simp [ingredientPhase], by simp⟩
  | some il =>
    obtain ⟨ni, h1, h2⟩ := get_or_create_ingredients_grow u inst.id il
      { db with recipeIngredients := m2m_clear db.recipeIngredients inst.id }
    exact ⟨ni, h1, fun i hi => (h2 i hi).1⟩

theorem create_recipes_eq (db : DB) (u : Nat) (cp : CreatePayload) :
    (recipe_detail_serializer_create db u cp).1.recipes =
      db.recipes ++ [(recipe_detail_serializer_create db u cp).2] := by
  have h1 : (recipe_detail_serializer_create db u cp).1 =
      get_or_create_ingredients
        (get_or_create_tags
          { db with
              recipes := db.recipes ++ [newRecipeOf db u cp],
              nextRecipeId := db.nextRecipeId + 1 }
          u (cp.tags.getD []) db.nextRecipeId)
        u (cp.ingredients.getD []) db.nextRecipeId := rfl
  rw [h1]
  rw [(get_or_create_ingredients_untouched u db.nextRecipeId (cp.ingredients.getD []) _).1,
    (get_or_create_tags_untouched u db.nextRecipeId (cp.tags.getD []) _).1]
  rfl

theorem create_tags_grow (db : DB) (u : Nat) (cp : CreatePayload) :
    ∃ nt, (recipe_detail_serializer_create db u cp).1.tags = db.tags ++ nt ∧
      ∀ t ∈ nt, t.user = u := by
  have h1 : (recipe_detail_serializer_create db u cp).1 =
      get_or_create_ingredients
        (get_or_create_tags
          { db with
              recipes := db.recipes ++ [newRecipeOf db u cp],
              nextRecipeId := db.nextRecipeId + 1 }
          u (cp.tags.getD []) db.nextRecipeId)
        u (cp.ingredients.getD []) db.nextRecipeId := rfl
  rw [h1]
  rw [(get_or_create_ingredients_untouched u db.nextRecipeId (cp.ingredients.getD []) _).2.1]
  obtain ⟨nt, h2, h3⟩ := get_or_create_tags_grow u db.nextRecipeId (cp.tags.getD [])
    { db with
        recipes := db.recipes ++ [newRecipeOf db u cp],
        nextRecipeId := db.nextRecipeId + 1 }
  refine ⟨nt, ?_, fun t ht => (h3 t ht).1⟩
  rw [h2]

theorem create_ingredients_grow (db : DB) (u : Nat) (cp : CreatePayload) :
    ∃ ni, (recipe_detail_serializer_create db u cp).1.ingredients =
      db.ingredients ++ ni ∧ ∀ i ∈ ni, i.user = u := by
  have h1 : (recipe_detail_serializer_create db u cp).1 =
      get_or_create_ingredients
        (get_or_create_tags
          { db with
              recipes := db.recipes ++ [newRecipeOf db u cp],
              nextRecipeId := db.nextRecipeId + 1 }
          u (cp.tags.getD []) db.nextRecipeId)
        u (cp.ingredients.getD []) db.nextRecipeId := rfl
  rw [h1]
  obtain ⟨ni, h2, h3⟩ := get_or_create_ingredients_grow u db.nextRecipeId
    (cp.ingredients.getD [])
    (get_or_create_tags
      { db with
          recipes := db.recipes ++ [newRecipeOf db u cp],
          nextRecipeId := db.nextRecipeId + 1 }
      u (cp.tags.getD []) db.nextRecipeId)
  refine ⟨ni, ?_, fun i hi => (h3 i hi).1⟩
  rw [h2]
  rw [(get_or_create_tags_untouched u db.nextRecipeId (cp.tags.getD []) _).2.1]

/-! ### Claim C4 -/

/-- C4: every operation preserves the ownership invariants.  On
update (run through serializer validation, so a `user` or `id` key in
the raw payload is dropped and never takes effect) every recipe row
keeps its `(id, user)` pair, the tag and ingredient tables only grow
and only with rows owned by the requesting user, and the link-scope
invariant — a recipe's tag/ingredient links reference only rows owned
by the recipe's owner — is preserved.  On create the new recipe is
owned by the requesting user, existing rows are untouched (tables
only grow with rows of that user), and the link-scope invariant is
preserved, because reconciliation looks up or creates only within the
requesting authenticated user's scope. -/
theorem C4_ownership_invariants (db : DB) (u : Nat) (inst : Recipe)
    (raw : RawUpdatePayload) (cp : CreatePayload)
    (hwf : WF db) (hscope : LinkScopeOK db)
    (hinst : inst ∈ db.recipes) (howner : inst.user = u) :
    ((recipe_update_via_api db u inst raw).recipes.map (fun r => (r.id, r.user)) =
      db.recipes.map (fun r => (r.id, r.user))) ∧
    (∃ nt, (recipe_update_via_api db u inst raw).tags = db.tags ++ nt ∧
      ∀ t ∈ nt, t.user = u) ∧
    (∃ ni, (recipe_update_via_api db u inst raw).ingredients = db.ingredients ++ ni ∧
      ∀ i ∈ ni, i.user = u) ∧
    LinkScopeOK (recipe_update_via_api db u inst raw) ∧
    (recipe_detail_serializer_create db u cp).2.user = u ∧
    ((recipe_detail_serializer_create db u cp).1.recipes =
      db.recipes ++ [(recipe_detail_serializer_create db u cp).2]) ∧
    (∃ nt, (recipe_detail_serializer_create db u cp).1.tags = db.tags ++ nt ∧
      ∀ t ∈ nt, t.user = u) ∧
    (∃ ni, (recipe_detail_serializer_create db u cp).1.ingredients =
      db.ingredients ++ ni ∧ ∀ i ∈ ni, i.user = u) ∧
    LinkScopeOK (recipe_detail_serializer_create db u cp).1 := by
  refine ⟨?_, detail_update_tags_grow db u inst _, detail_update_ingredients_grow db u inst _,
    update_preserves_scope db u inst _ hwf hscope hinst howner,
    rfl, create_recipes_eq db u cp, create_tags_grow db u cp,
    create_ingredients_grow db u cp, create_preserves_scope db u cp hwf hscope⟩
  show (recipe_detail_serializer_update db u inst (validate_update_payload raw)).recipes.map
      (fun r => (r.id, r.user)) = db.recipes.map (fun r => (r.id, r.user))
  rw [detail_update_phase_eq, ser_update_recipes, ingredientPhase_recipes]
  exact @saveRecipe_pairs db.recipes inst
    (applyScalars inst { validate_update_payload raw with ingredients := none })
    rfl rfl hwf.1 hinst

/-- Witness for C4: in `sampleDB`, user 1 updating their recipe 1 with
a raw payload whose `user` key is `2` leaves every recipe's
`(id, user)` pair — in particular the owner of recipe 1 — unchanged. -/
theorem C4_ownership_invariants_witness :
    (recipe_update_via_api sampleDB 1 (Recipe.mk 1 1 "Pasta" 10 5 "" "")
      { user := some 2 }).recipes.map (fun r => (r.id, r.user)) =
      sampleDB.recipes.map (fun r => (r.id, r.user)) :=
  (C4_ownership_invariants sampleDB 1 (Recipe.mk 1 1 "Pasta" 10 5 "" "")
    { user := some 2 } { title := "Toast", time_minutes := 5, price := 3 }
    (by decide) (by decide) (by decide) rfl).1

/-! ### Claim C7 -/

/-- C7 amended (the claim as stated is false of the code): `serializers.py`
wraps the nested writes in no transaction, so under autocommit the
`clear()` call and every following get-or-create/attach commit
separately: the sequence of persisted states of
`RecipeDetailSerializer.update` ends in the full update result, but
whenever the `tags` key is present it also passes through the
post-clear state, in which the recipe has no tag links at all and the
scalar fields are still the old ones — a failure right after the
clear therefore leaves the recipe's links cleared (or, later,
partially re-attached), not the original set. -/
theorem C7_update_not_atomic (db : DB) (u : Nat) (inst : Recipe) (p : UpdatePayload)
    (ts : List TagSpec) (hpt : p.tags = some ts) :
    (recipe_detail_update_states db u inst p).getLast? =
      some (recipe_detail_serializer_update db u inst p) ∧
    ∃ mid ∈ recipe_detail_update_states db u inst p,
      tagLinksOf mid inst.id = [] ∧ mid.recipes = db.recipes := by
  constructor
  · cases hpi : p.ingredients with
    | none =>
      simp only [recipe_detail_update_states, hpi, hpt]
      rw [List.getLast?_concat]
      simp [recipe_detail_serializer_update, recipe_serializer_update,
        applyScalars, hpi, hpt]
    | some il =>
      simp only [recipe_detail_update_states, hpi, hpt]
      rw [List.getLast?_concat]
      simp [recipe_detail_serializer_update, recipe_serializer_update,
        applyScalars, hpi, hpt]
  · cases hpi : p.ingredients with
    | none =>
      refine ⟨{ db with recipeTags := m2m_clear db.recipeTags inst.id }, ?_, ?_, rfl⟩
      · simp [recipe_detail_update_states, hpi, hpt]
      · exact tagLinks_of_clear _ _
    | some il =>
      refine ⟨{ get_or_create_ingredients
          { db with recipeIngredients := m2m_clear db.recipeIngredients inst.id }
          u il inst.id with
            recipeTags := m2m_clear (get_or_create_ingredients
              { db with recipeIngredients := m2m_clear db.recipeIngredients inst.id }
              u il inst.id).recipeTags inst.id }, ?_, ?_, ?_⟩
      · simp [recipe_detail_update_states, hpi, hpt]
      · exact tagLinks_of_clear _ _
      · exact (get_or_create_ingredients_untouched u inst.id il _).1

/-- Witness for the amended C7: a concrete update's last persisted
state is the serializer result. -/
theorem C7_update_not_atomic_witness :
    (recipe_detail_update_states sampleDB 1 (Recipe.mk 1 1 "Pasta" 10 5 "" "")
      { tags := some [⟨"Dessert"⟩] }).getLast? =
    some (recipe_detail_serializer_update sampleDB 1 (Recipe.mk 1 1 "Pasta" 10 5 "" "")
      { tags := some [⟨"Dessert"⟩] }) :=
  (C7_update_not_atomic sampleDB 1 (Recipe.mk 1 1 "Pasta" 10 5 "" "")
    { tags := some [⟨"Dessert"⟩] } [⟨"Dessert"⟩] rfl).1

/-- Counterexample to C7 as stated: in `sampleDB`, recipe 1 initially
links tag 1; updating it (as user 1) with `tags: [{name: "Dessert"}]`
commits an intermediate state — right after the clear — whose
persisted link set for recipe 1 is empty, differing from both the
original and the final state, so a failure at that point leaves
neither the original link set intact nor a fully-linked recipe. -/
theorem C7_update_not_atomic_counterexample :
    tagLinksOf sampleDB 1 = [(1, 1)] ∧
    ((recipe_detail_update_states sampleDB 1 (Recipe.mk 1 1 "Pasta" 10 5 "" "")
        { tags := some [⟨"Dessert"⟩] }).head?.map fun s => tagLinksOf s 1) = some [] ∧
    ((recipe_detail_update_states sampleDB 1 (Recipe.mk 1 1 "Pasta" 10 5 "" "")
        { tags := some [⟨"Dessert"⟩] }).getLast?.map fun s => tagLinksOf s 1) =
      some [(1, 2)] := by
  refine ⟨rfl, ?_, ?_⟩ <;> decide

end RecipeApp
